import Mathlib

/-!
Verification of the linear-algebra core of the repository (equation parser,
Gauss-Jordan elimination engine, determinant engine, inverse engine) against
its natural-language specification.

The Python source is shallowly embedded: Python floats are modelled as exact
rationals (ℚ), Python lists of rows as `List (List ℚ)`,
and code that can raise an exception as `Except PyErr`.
The tolerance constant `1e-12` of the source is the rational `1 / 10 ^ 12`.
-/

set_option maxRecDepth 4000

unseal Rat.mul Rat.add Rat.sub Rat.inv

namespace LinAlg

/-- Tolerance constant used by all engines in `MatrixOperations.py` (`1e-12`). -/
def tol : ℚ := 1 / 10 ^ 12

/-- Python exceptions that the embedded code can raise. -/
inductive PyErr where
  | valueError
  | indexError
deriving DecidableEq, Repr

deriving instance DecidableEq for Except

/-- Entry access `M[i][j]` with the convention that out-of-range reads give `0`.
All theorems below restrict to well-shaped inputs, where every access made by
the source is in range. -/
def get2 (M : List (List ℚ)) (i j : ℕ) : ℚ := (M.getD i []).getD j 0

/-! ## Elimination engine (`gauss_jordan_elimination`, `MatrixOperations.py` lines 52-136) -/

/-- Pivot scan of the elimination engine (`MatrixOperations.py` lines 75-77):
`i = r; while i < N and abs(M[i][lead]) < 1e-12: i += 1`.  The `fuel`
argument only bounds the recursion; `fuel = N` suffices for every call the
engine makes. -/
def scanPivot (M : List (List ℚ)) (lead N : ℕ) : ℕ → ℕ → ℕ
  | 0, i => i
  | fuel + 1, i => if i < N ∧ |get2 M i lead| < tol then scanPivot M lead N fuel (i + 1) else i

/-- Row swap `M[r], M[i] = M[i], M[r]` (`MatrixOperations.py` line 84). -/
def swapRows (M : List (List ℚ)) (r i : ℕ) : List (List ℚ) :=
  (M.set r (M.getD i [])).set i (M.getD r [])

/-- Elimination of column `lead` from every row other than `r`
(`MatrixOperations.py` lines 88-91): each row `j ≠ r` becomes
`[m_j - factor * m_r for m_j, m_r in zip(M[j], M[r])]` with
`factor = M[j][lead]`.  The Python loop is sequential but row `r` is skipped
and each row only reads itself and row `r`, so the update is simultaneous. -/
def elimRowsAux (rowR : List ℚ) (lead r : ℕ) : ℕ → List (List ℚ) → List (List ℚ)
  | _, [] => []
  | j, row :: rest =>
      (if j = r then row
       else row.zipWith (fun a b => a - row.getD lead 0 * b) rowR) :: elimRowsAux rowR lead r (j + 1) rest

/-- Processing of a found pivot (`MatrixOperations.py` lines 84-91): swap
rows `r` and `i`, normalize row `r` by the pivot entry at column `lead`,
then eliminate column `lead` from every other row. -/
def gjPivotStep (M : List (List ℚ)) (r lead i : ℕ) : List (List ℚ) :=
  let M1 := swapRows M r i
  let piv := get2 M1 r lead
  let M2 := M1.set r ((M1.getD r []).map (fun x => x / piv))
  elimRowsAux (M2.getD r []) lead r 0 M2

/-- Body of the `for r in range(N)` loop of the elimination engine
(`MatrixOperations.py` lines 71-93).  `fuel` counts the remaining iterations
(the engine starts it at `N`); `lead` is the pivot-column cursor.  Note that
the `continue` of line 81 moves on to the next value of `r`: both branches
of the loop advance `r` (and `lead`) by one. -/
def gjLoop (N cols : ℕ) : ℕ → ℕ → ℕ → List (List ℚ) → List (List ℚ)
  | 0, _, _, M => M
  | fuel + 1, r, lead, M =>
      if cols - 1 ≤ lead then M
      else
        let i := scanPivot M lead N N r
        if N ≤ i then gjLoop N cols fuel (r + 1) (lead + 1) M
        else gjLoop N cols fuel (r + 1) (lead + 1) (gjPivotStep M r lead i)

/-- Reduction phase of the elimination engine: the whole `for r in range(N)`
loop run on the (already float-converted) matrix. -/
def gaussReduce (A : List (List ℚ)) : List (List ℚ) :=
  gjLoop A.length (A.headD []).length A.length 0 0 A

/-- Result classification of the elimination engine.  The source returns a
formatted string; the three shapes of that string are modelled by this tag
(the unique-solution payload is not needed by any claim). -/
inductive Classification where
  | inconsistent
  | infinite
  | unique
deriving DecidableEq, Repr

/-- Inconsistency scan of the elimination engine (`MatrixOperations.py`
lines 96-105): the first row whose coefficient entries `row[:-1]` are all
within tolerance of zero and whose constant entry `row[-1]` exceeds the
tolerance makes the system inconsistent.  Python evaluates `row[-1]` only
after `all(...)` holds; on an empty row that access raises `IndexError`. -/
def checkRows : List (List ℚ) → Except PyErr Bool
  | [] => .ok false
  | row :: rest =>
      if row.dropLast.all (fun x => decide (|x| < tol)) then
        match row.getLast? with
        | none => .error .indexError
        | some last => if tol < |last| then .ok true else checkRows rest
      else checkRows rest

/-- Elimination engine `gauss_jordan_elimination` of `MatrixOperations.py`
(list-of-rows input path).  On the empty list the source raises `IndexError`
at line 63 while reading `aug_matrix[0]` to determine the column count.
After the reduction loop it classifies the system: inconsistent rows first
(lines 96-105), then the pivot-row count against `cols - 1` (lines 107-117),
otherwise a unique solution. -/
def gauss_jordan_elimination (A : List (List ℚ)) : Except PyErr Classification :=
  match A with
  | [] => .error .indexError
  | a :: rest =>
      let M := gjLoop (a :: rest).length a.length (a :: rest).length 0 0 (a :: rest)
      match checkRows M with
      | .error e => .error e
      | .ok true => .ok .inconsistent
      | .ok false =>
          if M.countP (fun row => row.dropLast.any (fun x => decide (tol < |x|))) < a.length - 1
          then .ok .infinite
          else .ok .unique

/-! ## Determinant engine (`determinant`, `MatrixOperations.py` lines 139-168) -/

/-- Python `max(candidates, key=f)`: the first element of the list whose key
is maximal (on ties `max` keeps the earliest element; later elements replace
the current best only when strictly greater). -/
def maxKeyFirst {n : ℕ} (f : Fin n → ℚ) : List (Fin n) → Fin n → Fin n
  | [], best => best
  | x :: xs, best => maxKeyFirst f xs (if f best < f x then x else best)

/-- Pivot selection of the determinant and inverse engines
(`MatrixOperations.py` line 154): `max(range(i, n), key=lambda r: abs(M[r][i]))`,
the first row `r ≥ i` of largest absolute value in column `i`. -/
def pivotIdx {n : ℕ} (M : Matrix (Fin n) (Fin n) ℚ) (i : Fin n) : Fin n :=
  maxKeyFirst (fun r => |M r i|) ((List.finRange n).filter (fun r => i < r)) i

/-- Row swap `M[i], M[pivot_row] = M[pivot_row], M[i]` on the function
representation of the working matrix. -/
def swapFun {n : ℕ} (M : Matrix (Fin n) (Fin n) ℚ) (i p : Fin n) :
    Matrix (Fin n) (Fin n) ℚ :=
  Matrix.of fun r c => M (if r = i then p else if r = p then i else r) c

/-- Elimination step of the determinant engine (`MatrixOperations.py`
lines 163-166): for every row `r > i` subtract `factor * M[i][c]` from
`M[r][c]` for the columns `c ≥ i`, with `factor = M[r][i] / pivot`.  Rows
`≤ i` and columns `< i` are untouched. -/
def elimBelow {n : ℕ} (M : Matrix (Fin n) (Fin n) ℚ) (i : Fin n) (piv : ℚ) :
    Matrix (Fin n) (Fin n) ℚ :=
  Matrix.of fun r c => if i < r ∧ i ≤ c then M r c - M r i / piv * M i c else M r c

/-- Main loop of the determinant engine (`for i in range(n)`,
`MatrixOperations.py` lines 152-166).  `none` models the early return
`"Determinant: 0.0 (matrix is singular)"` of line 156; `some d` is the
running product of pivots and swap signs.  `fuel` counts the remaining
stages; the engine starts it at `n` with stage `i = 0`. -/
def detLoop {n : ℕ} : ℕ → ℕ → Matrix (Fin n) (Fin n) ℚ → ℚ → Option ℚ
  | 0, _, _, d => some d
  | fuel + 1, i, M, d =>
      if h : i < n then
        let iF : Fin n := ⟨i, h⟩
        let p := pivotIdx M iF
        if |M p iF| < tol then none
        else
          let M1 := swapFun M iF p
          let d1 := if p = iF then d else -d
          let piv := M1 iF iF
          detLoop fuel (i + 1) (elimBelow M1 iF piv) (d1 * piv)
      else some d

/-- Proof-support definition: the unitriangular elementary matrix whose
left-multiplication performs the `elimBelow` row operations (subtract
`M r i / piv` times row `i` from every row `r > i`). -/
def elimMat {n : ℕ} (M : Matrix (Fin n) (Fin n) ℚ) (i : Fin n) (piv : ℚ) :
    Matrix (Fin n) (Fin n) ℚ :=
  Matrix.of fun r c => if r = c then 1 else if c = i ∧ i < r then -(M r i / piv) else 0

/-- Transpose of a list-of-rows matrix (the operation named by the spec
property `determinant(A) == determinant(transpose(A))`; the source has no
transpose of its own). -/
def transposeL (A : List (List ℚ)) : List (List ℚ) :=
  (List.range (A.headD []).length).map (fun j => A.map (fun row => row.getD j 0))

/-- Results of the determinant engine.  The source returns one of three
strings: the non-square error message, the singular short-circuit message,
and the formatted value; this tag models that three-way shape with the exact
value carried in the third case. -/
inductive DetResult where
  | shapeError
  | singular
  | value (d : ℚ)
deriving DecidableEq, Repr

/-- View of a list-of-rows matrix as a square `Matrix` over `Fin`;
out-of-range entries (never read on square inputs) default to `0`. -/
def toMat (A : List (List ℚ)) : Matrix (Fin A.length) (Fin A.length) ℚ :=
  Matrix.of fun i j => get2 A i j

/-- Determinant engine `determinant` of `MatrixOperations.py` (default
tolerance): the squareness guard of line 145 (`any(len(row) != n for row in
A)`), then the partial-pivoted triangularization loop started with
accumulator `det = 1.0`. -/
def determinant (A : List (List ℚ)) : DetResult :=
  if A.any (fun row => row.length != A.length) then DetResult.shapeError
  else
    match detLoop A.length 0 (toMat A) 1 with
    | none => DetResult.singular
    | some d => DetResult.value d

/-- Format a rational to six decimal places, modelling the Python rendering
`f"Determinant: {det:.6f}"` for values whose scaled magnitude is not an exact
half (ties are rounded up here, while Python rounds the underlying double to
even; no claim exercises a tie). -/
def fmt6 (q : ℚ) : String :=
  let y : ℚ := |q| * 1000000 + 1 / 2
  let m : ℤ := y.num / (y.den : ℤ)
  let ip := m / 1000000
  let frac := (m % 1000000).toNat
  let fs := Nat.repr frac
  (if q < 0 then "-" else "") ++ ip.repr ++ "." ++
    String.mk (List.replicate (6 - fs.length) '0') ++ fs

/-- Rendering of the three determinant results as the strings the source
returns (lines 146, 156 and 168 of `MatrixOperations.py`). -/
def renderDet : DetResult → String
  | DetResult.shapeError => "Error: Determinant is defined only for square matrices."
  | DetResult.singular => "Determinant: 0.0 (matrix is singular)"
  | DetResult.value d => "Determinant: " ++ fmt6 d

/-- Modelled from the spec: the loop of section 4.2 step 3, which on an
all-zero pivot column advances `lead` by one and "retries the same `r`"
instead of moving on to the next target row.  This variant is absent from
the source (the `continue` of `MatrixOperations.py` line 81 advances `r`);
it is defined here only to compare the spec's described stepping with the
code's.  All other steps are identical to `gjLoop`. -/
def gjLoopRetry (N cols : ℕ) : ℕ → ℕ → ℕ → List (List ℚ) → List (List ℚ)
  | 0, _, _, M => M
  | fuel + 1, r, lead, M =>
      if N ≤ r ∨ cols - 1 ≤ lead then M
      else
        let i := scanPivot M lead N N r
        if N ≤ i then gjLoopRetry N cols fuel r (lead + 1) M
        else gjLoopRetry N cols fuel (r + 1) (lead + 1) (gjPivotStep M r lead i)

/-- Entry point of the spec-described retry variant; the fuel
`N + cols + 1` dominates the number of iterations (every iteration
increases `lead`, which is capped by `cols - 1`, or finishes a row). -/
def gaussReduceRetry (A : List (List ℚ)) : List (List ℚ) :=
  gjLoopRetry A.length (A.headD []).length (A.length + (A.headD []).length + 1) 0 0 A

/-- Spec-side reading of an inconsistent row of a `cols`-column augmented
matrix: every coefficient entry (columns `0` to `cols - 2`) is within
tolerance of zero while the constant entry (column `cols - 1`) exceeds the
tolerance in absolute value. -/
def InconsRow (cols : ℕ) (row : List ℚ) : Prop :=
  (∀ j, j < cols - 1 → |row.getD j 0| < tol) ∧ tol < |row.getD (cols - 1) 0|

/-- Spec-side inconsistency condition: some row of the reduced matrix is an
inconsistent row. -/
def InconsSpec (cols : ℕ) (M : List (List ℚ)) : Prop :=
  ∃ row ∈ M, InconsRow cols row

instance instDecInconsRow (cols : ℕ) (row : List ℚ) : Decidable (InconsRow cols row) :=
  inferInstanceAs (Decidable ((∀ j, j < cols - 1 → |row.getD j 0| < tol) ∧
    tol < |row.getD (cols - 1) 0|))

instance instDecInconsSpec (cols : ℕ) (M : List (List ℚ)) : Decidable (InconsSpec cols M) :=
  inferInstanceAs (Decidable (∃ row ∈ M, InconsRow cols row))

/-- Spec-side pivot-row count: the number of rows having at least one
coefficient entry exceeding the tolerance in absolute value. -/
def pivotRowsSpec (cols : ℕ) (M : List (List ℚ)) : ℕ :=
  M.countP (fun row => decide (∃ j, j < cols - 1 ∧ tol < |row.getD j 0|))

/-- Matrices on which the reduction loop provably makes no change: at every
stage `r` that the loop visits (`r < N` and `r < cols - 1`; the cursor
`lead` always equals `r` because both loop branches advance them together),
either every row `i ≥ r` has a below-tolerance entry in column `r` (the
stage is skipped), or the diagonal entry is exactly `1` and every other row
has an exact `0` in column `r` (the stage swaps, normalizes and eliminates
without effect). -/
def IsReducedFix (cols : ℕ) (M : List (List ℚ)) : Prop :=
  ∀ r, r < M.length → r < cols - 1 →
    (∀ i, r ≤ i → i < M.length → |get2 M i r| < tol) ∨
    (get2 M r r = 1 ∧ ∀ j, j < M.length → j ≠ r → get2 M j r = 0)

/-! ## Inverse engine (`inverse`, `MatrixOperations.py` lines 171-210) -/

/-- Main loop of the inverse engine (`for i in range(n)`,
`MatrixOperations.py` lines 184-201): magnitude-based pivot selection as in
the determinant engine, singular short-circuit below tolerance, swap of both
halves, normalization of the pivot row in both halves, and elimination of
column `i` from every other row in both halves (whole rows, unlike the
determinant engine). -/
def invLoop {n : ℕ} : ℕ → ℕ → Matrix (Fin n) (Fin n) ℚ → Matrix (Fin n) (Fin n) ℚ →
    Option (Matrix (Fin n) (Fin n) ℚ)
  | 0, _, _, inv => some inv
  | fuel + 1, i, M, inv =>
      if h : i < n then
        let iF : Fin n := ⟨i, h⟩
        let p := pivotIdx M iF
        if |M p iF| < tol then none
        else
          let M1 := swapFun M iF p
          let I1 := swapFun inv iF p
          let piv := M1 iF iF
          let M2 := Matrix.of fun r c => if r = iF then M1 r c / piv else M1 r c
          let I2 := Matrix.of fun r c => if r = iF then I1 r c / piv else I1 r c
          let M3 := Matrix.of fun r c => if r ≠ iF then M2 r c - M2 r iF * M2 iF c else M2 r c
          let I3 := Matrix.of fun r c => if r ≠ iF then I2 r c - M2 r iF * I2 iF c else I2 r c
          invLoop fuel (i + 1) M3 I3
      else some inv

/-- Results of the inverse engine: the non-square error string, the
singular message, or the inverse matrix (identity-side half after all
pivots). -/
inductive InvResult (n : ℕ) where
  | shapeError
  | singular
  | value (Minv : Matrix (Fin n) (Fin n) ℚ)

/-- Inverse engine `inverse` of `MatrixOperations.py` (default tolerance):
squareness guard of line 177, then augmented Gauss-Jordan starting from the
identity `inv = [[float(i == j) for j in range(n)] for i in range(n)]`. -/
def inverse (A : List (List ℚ)) : InvResult A.length :=
  if A.any (fun row => row.length != A.length) then InvResult.shapeError
  else
    match invLoop A.length 0 (toMat A) (Matrix.of fun i j => if i = j then 1 else 0) with
    | none => InvResult.singular
    | some inv => InvResult.value inv

/-! ## Frame model: caller-visible argument contents after each engine call -/

/-- Caller-visible contents of the argument after
`gauss_jordan_elimination` of `MatrixOperations.py` returns: line 66 copies
every row into the local `M` (`[list(map(float, row)) for row in
aug_matrix]`) and every later write of the function targets `M`; the
caller's list is never assigned, so its contents after the call are the
argument unchanged. -/
def gaussCallerMatrix (A : List (List ℚ)) : List (List ℚ) := A

/-- Caller-visible contents of the argument after `determinant` of
`MatrixOperations.py` returns: line 149 copies the input
(`[list(map(float, row)) for row in A]`) and all writes target the copy. -/
def determinantCallerMatrix (A : List (List ℚ)) : List (List ℚ) := A

/-- Caller-visible contents of the argument after `inverse` of
`MatrixOperations.py` returns: lines 181-182 copy the input and build the
identity; all writes target those locals. -/
def inverseCallerMatrix (A : List (List ℚ)) : List (List ℚ) := A

/-- Pivot scan of the near-duplicate `gauss_jordan_elimination` in
`test.py` (lines 31-33): exact comparison with zero
(`while i < N and aug_matrix[i][lead] == 0`), no tolerance. -/
def tScanPivot (M : List (List ℚ)) (lead N : ℕ) : ℕ → ℕ → ℕ
  | 0, i => i
  | fuel + 1, i => if i < N ∧ get2 M i lead = 0 then tScanPivot M lead N fuel (i + 1) else i

/-- Reduction loop of the `test.py` variant (lines 27-50): identical
stepping to `gjLoop` but with the exact-zero pivot scan, and -- crucially
for claim C5 -- operating directly on `aug_matrix`, the caller's list. -/
def tGjLoop (N cols : ℕ) : ℕ → ℕ → ℕ → List (List ℚ) → List (List ℚ)
  | 0, _, _, M => M
  | fuel + 1, r, lead, M =>
      if cols - 1 ≤ lead then M
      else
        let i := tScanPivot M lead N N r
        if N ≤ i then tGjLoop N cols fuel (r + 1) (lead + 1) M
        else tGjLoop N cols fuel (r + 1) (lead + 1) (gjPivotStep M r lead i)

/-- Caller-visible contents of `aug_matrix` after the `test.py`
`gauss_jordan_elimination` returns: lines 39-49 assign the swapped,
normalized and eliminated rows directly to `aug_matrix` (there is no copy),
so the caller's list afterwards holds the reduced matrix; the empty input
raises `IndexError` at line 21 before any write. -/
def tGaussCallerMatrix (A : List (List ℚ)) : Except PyErr (List (List ℚ)) :=
  match A with
  | [] => .error .indexError
  | a :: rest => .ok (tGjLoop (a :: rest).length a.length (a :: rest).length 0 0 (a :: rest))

/-! ## Equation parser (`parse_gauss_jordan_elimination`,
`MatrixOperations.py` lines 1-49) -/

/-- Python whitespace as stripped by `str.strip` (the four kinds that can
occur in this embedding: space, tab, newline, carriage return). -/
def isPySpace (c : Char) : Bool :=
  decide (c.toNat = 32 ∨ c.toNat = 9 ∨ c.toNat = 10 ∨ c.toNat = 13)

/-- Python `str.strip`: drop whitespace from both ends. -/
def pyStrip (l : List Char) : List Char :=
  ((l.dropWhile isPySpace).reverse.dropWhile isPySpace).reverse

/-- Python `str.split(sep)` for a one-character separator: always returns
at least one (possibly empty) piece; `"".split(sep)` gives `[""]`. -/
def pySplit (sep : Char) : List Char → List (List Char)
  | [] => [[]]
  | c :: rest =>
      let r := pySplit sep rest
      if c = sep then [] :: r else (c :: r.headD []) :: r.tail

/-- Python `str.splitlines` restricted to texts whose only terminators are
interior newlines (true of stripped text): the empty string gives no lines,
otherwise split on the newline character. -/
def splitLines (l : List Char) : List (List Char) :=
  if l = [] then [] else pySplit '\n' l

/-- Value of a string of decimal digit characters (what Python `int` does
on `coef_str` and on the right-hand side). -/
def digitsVal (l : List Char) : ℕ :=
  l.foldl (fun a c => 10 * a + (c.toNat - 48)) 0

/-- Optional leading sign of the scanner (`MatrixOperations.py` lines
19-24): consume one `+` or `-` when present, with `-` flipping the sign. -/
def signSplit : List Char → ℤ × List Char
  | [] => (1, [])
  | c :: rest =>
      if c = '+' then (1, rest)
      else if c = '-' then (-1, rest) else (1, c :: rest)

/-- Python `int(s)` on a string of an optional sign and decimal digits;
anything else raises `ValueError`.  (Pythonic extras such as underscores
are not rendered by any input this development considers.) -/
def intParse (l : List Char) : Except PyErr ℤ :=
  let t := pyStrip l
  let s := signSplit t
  if s.2 ≠ [] ∧ s.2.all Char.isDigit then .ok (s.1 * digitsVal s.2)
  else .error .valueError

/-- Dictionary update `equation[var] = equation.get(var, 0) + delta`
(`MatrixOperations.py` line 38) on an association list. -/
def updAssoc (e : List (Char × ℤ)) (v : Char) (d : ℤ) : List (Char × ℤ) :=
  match e.lookup v with
  | some x => e.map (fun q => if q.1 = v then (v, x + d) else q)
  | none => e ++ [(v, d)]

/-- Dictionary read `equation.get(v, 0)` (`MatrixOperations.py` line 45). -/
def lookupD (e : List (Char × ℤ)) (v : Char) : ℤ :=
  (e.lookup v).getD 0

/-- Term scanner of the parser (`MatrixOperations.py` lines 17-38): while
characters remain, read an optional sign, a run of digits (empty run means
coefficient 1), then one character as the variable (`IndexError` when the
line ends there), accumulate the signed coefficient into the equation
dictionary and append unseen variables to the global list.  The `fuel`
argument only bounds the recursion: every iteration consumes at least the
variable character, so `fuel = length of the remaining input` suffices (the
fuel-exhausted arm is unreachable on such calls). -/
def parseTermsAux : ℕ → List Char → List (Char × ℤ) → List Char →
    Except PyErr ((List (Char × ℤ)) × List Char)
  | _, [], eqn, vars => .ok (eqn, vars)
  | 0, _ :: _, _, _ => .error .indexError
  | fuel + 1, c :: rest, eqn, vars =>
      let s := signSplit (c :: rest)
      let coefStr := s.2.takeWhile Char.isDigit
      let coef : ℤ := if coefStr = [] then 1 else (digitsVal coefStr : ℤ)
      match s.2.dropWhile Char.isDigit with
      | [] => .error .indexError
      | v :: rem2 =>
          parseTermsAux fuel rem2 (updAssoc eqn v (s.1 * coef))
            (if v ∈ vars then vars else vars ++ [v])

/-- Processing of one equation line (`MatrixOperations.py` lines 13-41):
remove spaces, split on `=` into exactly two parts (`ValueError`
otherwise, from the tuple unpacking), scan the terms, then parse the
right-hand side integer. -/
def parseLine (line : List Char) (vars : List Char) :
    Except PyErr ((List (Char × ℤ)) × ℤ × List Char) :=
  let l := line.filter (fun c => c != ' ')
  match pySplit '=' l with
  | [left, right] =>
      match parseTermsAux left.length left [] vars with
      | .error e => .error e
      | .ok (eqn, vars2) =>
          match intParse right with
          | .error e => .error e
          | .ok rhs => .ok (eqn, rhs, vars2)
  | _ => .error .valueError

/-- Fold of `parseLine` over the lines, accumulating equations in order
and threading the global variable list. -/
def parseLinesAux : List (List Char) → List ((List (Char × ℤ)) × ℤ) → List Char →
    Except PyErr (List ((List (Char × ℤ)) × ℤ) × List Char)
  | [], eqns, vars => .ok (eqns, vars)
  | line :: rest, eqns, vars =>
      match parseLine line vars with
      | .error e => .error e
      | .ok (eqn, rhs, vars2) => parseLinesAux rest (eqns ++ [(eqn, rhs)]) vars2

/-- Equation parser `parse_gauss_jordan_elimination` of
`MatrixOperations.py`: strip the text, split into lines, parse each line,
then assemble one row per equation (`[eq.get(v, 0) for v in variables]`
with the final constant appended). -/
def parse_gauss_jordan_elimination (text : List Char) :
    Except PyErr (List (List ℤ) × List Char) :=
  match parseLinesAux (splitLines (pyStrip text)) [] [] with
  | .error e => .error e
  | .ok (eqns, vars) =>
      .ok (eqns.map (fun eq => vars.map (fun v => lookupD eq.1 v) ++ [eq.2]), vars)

/-! ## Spec-side model of well-formed equation texts (for claim C3) -/

/-- A term of a well-formed equation as the spec describes it: an optional
explicit sign, an optional run of coefficient digit characters (absent
means implicit coefficient 1), and a single variable letter. -/
structure RTerm where
  sgn : Option Bool
  coefDigits : Option (List Char)
  v : Char
deriving DecidableEq, Repr

/-- A well-formed equation: its terms and the signed right-hand side
integer given by digit characters. -/
structure REqn where
  terms : List RTerm
  rhsSgn : Option Bool
  rhsDigits : List Char
deriving DecidableEq, Repr

/-- Rendering of one term back to text (`some true` renders `+`,
`some false` renders `-`). -/
def renderTerm (t : RTerm) : List Char :=
  (match t.sgn with | none => [] | some true => ['+'] | some false => ['-']) ++
    (match t.coefDigits with | none => [] | some ds => ds) ++ [t.v]

/-- Rendering of a term list. -/
def renderTerms : List RTerm → List Char
  | [] => []
  | t :: ts => renderTerm t ++ renderTerms ts

/-- Rendering of one equation (`terms=rhs`). -/
def renderEqn (e : REqn) : List Char :=
  renderTerms e.terms ++ '=' ::
    ((match e.rhsSgn with | none => [] | some true => ['+'] | some false => ['-']) ++
      e.rhsDigits)

/-- Rendering of a whole equation system, one equation per line. -/
def renderText : List REqn → List Char
  | [] => []
  | [e] => renderEqn e
  | e :: es => renderEqn e ++ '\n' :: renderText es

/-- Signed value of one term, with implicit coefficient 1 when no digits
precede the variable. -/
def termVal (t : RTerm) : ℤ :=
  (if t.sgn = some false then -1 else 1) *
    (match t.coefDigits with | none => 1 | some ds => (digitsVal ds : ℤ))

/-- Signed value of the right-hand side. -/
def rhsVal (e : REqn) : ℤ :=
  (if e.rhsSgn = some false then -1 else 1) * (digitsVal e.rhsDigits : ℤ)

/-- Well-formedness of a term: the variable is a letter, and an explicit
coefficient is a nonempty run of digits. -/
def WFTerm (t : RTerm) : Prop :=
  t.v.isAlpha = true ∧
    match t.coefDigits with
    | none => True
    | some ds => ds ≠ [] ∧ ∀ c ∈ ds, c.isDigit = true

/-- Well-formedness of an equation: every term is well-formed and the
right-hand side is a nonempty run of digits. -/
def WFEqn (e : REqn) : Prop :=
  (∀ t ∈ e.terms, WFTerm t) ∧ e.rhsDigits ≠ [] ∧ ∀ c ∈ e.rhsDigits, c.isDigit = true

/-- Well-formedness of an equation system. -/
def WFText (es : List REqn) : Prop := ∀ e ∈ es, WFEqn e

/-- Well-formedness of a term is decidable. -/
instance instDecWFTerm (t : RTerm) : Decidable (WFTerm t) := by
  unfold WFTerm
  cases t.coefDigits with
  | none => exact inferInstanceAs (Decidable (t.v.isAlpha = true ∧ True))
  | some ds =>
      exact inferInstanceAs
        (Decidable (t.v.isAlpha = true ∧ ds ≠ [] ∧ ∀ c ∈ ds, c.isDigit = true))

/-- Well-formedness of an equation is decidable. -/
instance instDecWFEqn (e : REqn) : Decidable (WFEqn e) :=
  inferInstanceAs (Decidable ((∀ t ∈ e.terms, WFTerm t) ∧ e.rhsDigits ≠ [] ∧
    ∀ c ∈ e.rhsDigits, c.isDigit = true))

/-- Well-formedness of an equation system is decidable. -/
instance instDecWFText (es : List REqn) : Decidable (WFText es) :=
  inferInstanceAs (Decidable (∀ e ∈ es, WFEqn e))

/-- First-appearance accumulation of the variables of a term list. -/
def accVars (vars : List Char) : List RTerm → List Char
  | [] => vars
  | t :: ts => accVars (if t.v ∈ vars then vars else vars ++ [t.v]) ts

/-- First-appearance accumulation of the variables across all equations. -/
def accVarsText (vars : List Char) : List REqn → List Char
  | [] => vars
  | e :: es => accVarsText (accVars vars e.terms) es

/-- Spec-side column order: global first appearance of variables. -/
def expectedVars (es : List REqn) : List Char := accVarsText [] es

/-- Accumulation of the scanned terms into the equation dictionary. -/
def accEqn (eqn : List (Char × ℤ)) : List RTerm → List (Char × ℤ)
  | [] => eqn
  | t :: ts => accEqn (updAssoc eqn t.v (termVal t)) ts

/-- Spec-side coefficient of variable `v` in a term list: the sum of the
signed coefficients of the terms mentioning `v`. -/
def coeffSumTerms (ts : List RTerm) (v : Char) : ℤ :=
  ((ts.filter (fun t => t.v == v)).map termVal).sum

/-- Spec-side row of one equation: one summed coefficient per variable in
column order, then the right-hand side. -/
def expectedRow (vars : List Char) (e : REqn) : List ℤ :=
  vars.map (coeffSumTerms e.terms) ++ [rhsVal e]

/-- Python `max` returns either its initial best candidate or an element of
the remaining candidate list. -/
theorem maxKeyFirst_mem {n : ℕ} (f : Fin n → ℚ) :
    ∀ (l : List (Fin n)) (b : Fin n), maxKeyFirst f l b = b ∨ maxKeyFirst f l b ∈ l := by
  intro l
  induction l with
  | nil => intro b; exact Or.inl rfl
  | cons x xs ih =>
      intro b
      rcases ih (if f b < f x then x else b) with h | h
      · rw [maxKeyFirst, h]
        by_cases hc : f b < f x
        · rw [if_pos hc]; exact Or.inr (List.mem_cons_self x xs)
        · rw [if_neg hc]; exact Or.inl rfl
      · exact Or.inr (List.mem_cons_of_mem x (by rw [maxKeyFirst]; exact h))

/-- Pivot selection of the determinant engine only considers rows `r ≥ i`. -/
theorem pivotIdx_ge {n : ℕ} (M : Matrix (Fin n) (Fin n) ℚ) (i : Fin n) :
    i ≤ pivotIdx M i := by
  rcases maxKeyFirst_mem (fun r => |M r i|) ((List.finRange n).filter (fun r => i < r)) i with
    h | h
  · rw [pivotIdx, h]
  · rw [pivotIdx]
    have := List.mem_filter.mp h
    exact le_of_lt (by exact_mod_cast of_decide_eq_true this.2)

/-! ## Claim C6: the singular short-circuit of the determinant engine -/

/-- Claim C6: whenever at a stage `i` every candidate pivot among the rows
`r ≥ i` is below the tolerance in absolute value (equivalently, the
largest-magnitude candidate is), the determinant engine stops immediately
with the singular result, regardless of how many stages remain; the
list-level engine maps that loop outcome to the ordinary data result
`DetResult.singular`, rendered as the singular message string (not an
exception: the embedded engine is a total function into `DetResult`). -/
theorem det_singular_shortcircuit :
    (∀ (n k i : ℕ) (M : Matrix (Fin n) (Fin n) ℚ) (d : ℚ) (h : i < n),
        (∀ r : Fin n, i ≤ r.val → |M r ⟨i, h⟩| < tol) →
        detLoop (k + 1) i M d = none) ∧
    (∀ A : List (List ℚ), A.any (fun row => row.length != A.length) = false →
        detLoop A.length 0 (toMat A) 1 = none → determinant A = DetResult.singular) ∧
    renderDet DetResult.singular = "Determinant: 0.0 (matrix is singular)" := by
  refine ⟨?_, ?_, rfl⟩
  · intro n k i M d h hall
    rw [detLoop, dif_pos h]
    have hp : i ≤ (pivotIdx M ⟨i, h⟩).val := pivotIdx_ge M ⟨i, h⟩
    rw [if_pos (hall _ hp)]
  · intro A hshape hloop
    rw [determinant, if_neg (by rw [hshape]; exact Bool.false_ne_true), hloop]

/-- Witness for the singular short-circuit: the 1-by-1 matrix holding
`1e-13` (below the `1e-12` tolerance) stops at stage 0 and is reported
singular by the list-level engine. -/
theorem det_singular_shortcircuit_witness :
    @detLoop 1 1 0 (Matrix.of fun _ _ => (1 : ℚ) / 10 ^ 13) 1 = none ∧
      determinant [[(1 : ℚ) / 10 ^ 13]] = DetResult.singular := by
  constructor
  · exact det_singular_shortcircuit.1 1 0 0 _ 1 (by decide) (by decide)
  · exact det_singular_shortcircuit.2.1 _ (by decide) (by decide)

/-! ## Claim C10: the determinant of the 0-by-0 matrix -/

/-- Claim C10: on the empty list the determinant engine passes the
squareness check vacuously, performs no elimination stage, and returns the
accumulator `1.0` as a success value, rendered `Determinant: 1.000000` --
neither a shape error nor a singular result. -/
theorem determinant_empty :
    determinant [] = DetResult.value 1 ∧
      renderDet (determinant []) = "Determinant: 1.000000" := by
  exact ⟨by decide, by decide⟩

/-! ## Claim C9: the elimination engine on the empty matrix -/

/-- Claim C9: on the empty matrix (a list with no rows) the elimination
engine raises an uncaught `IndexError` while reading the first row to
determine the column count, before any classification is produced. -/
theorem gauss_jordan_empty_raises :
    gauss_jordan_elimination [] = .error .indexError := rfl

/-- Characterization of the pivot scan: starting from `r ≤ N` with enough
fuel, the scan stops at the first index at or after `r` whose column entry
reaches the tolerance, or at `N` when none exists below `N`. -/
theorem scanPivot_spec (M : List (List ℚ)) (lead N : ℕ) :
    ∀ (fuel r : ℕ), r ≤ N → N ≤ r + fuel →
      r ≤ scanPivot M lead N fuel r ∧ scanPivot M lead N fuel r ≤ N ∧
      (∀ k, r ≤ k → k < scanPivot M lead N fuel r → |get2 M k lead| < tol) ∧
      (scanPivot M lead N fuel r < N → tol ≤ |get2 M (scanPivot M lead N fuel r) lead|) := by
  intro fuel
  induction fuel with
  | zero =>
      intro r hrN hNr
      have hrN' : r = N := le_antisymm hrN hNr
      rw [scanPivot]
      exact ⟨le_refl r, hrN, fun k hk hk2 => absurd (lt_of_le_of_lt hk hk2) (lt_irrefl r),
        fun h => absurd h (by rw [hrN']; exact lt_irrefl N)⟩
  | succ fuel ih =>
      intro r hrN hNr
      rw [scanPivot]
      by_cases hc : r < N ∧ |get2 M r lead| < tol
      · rw [if_pos hc]
        obtain ⟨h1, h2, h3, h4⟩ := ih (r + 1) hc.1 (by omega)
        refine ⟨by omega, h2, ?_, h4⟩
        intro k hk hks
        rcases eq_or_lt_of_le hk with h | h
        · rw [← h]; exact hc.2
        · exact h3 k h hks
      · rw [if_neg hc]
        refine ⟨le_refl r, hrN, fun k hk hk2 => absurd (lt_of_le_of_lt hk hk2) (lt_irrefl r),
          fun h => ?_⟩
        rw [Classical.not_and_iff_or_not_not] at hc
        rcases hc with h1 | h2
        · exact absurd h h1
        · exact le_of_not_lt h2

/-- Skip step of the elimination engine: when the scan finds no pivot, the
loop proceeds with the same matrix, the next target row and the next
column. -/
theorem gjLoop_skip_step (N cols fuel r lead : ℕ) (M : List (List ℚ))
    (h1 : ¬ cols - 1 ≤ lead) (h2 : N ≤ scanPivot M lead N N r) :
    gjLoop N cols (fuel + 1) r lead M = gjLoop N cols fuel (r + 1) (lead + 1) M := by
  rw [gjLoop, if_neg h1]
  simp only [if_pos h2]

/-! ## Claim C1: pivot scan and the all-zero-column policy -/

/-- Counterexample to claim C1: on `[[0,0,1,5],[0,1,0,3]]` the engine's
reduction differs from the spec-described variant that retries the same
target row after skipping an all-zero column.  The code's `continue`
consumes target row 0 while skipping column 0, so row 0 is never processed
as a pivot row; the retry variant instead swaps the pivot row up. -/
theorem gj_skip_retry_counterexample :
    gaussReduce [[0, 0, 1, 5], [0, 1, 0, 3]] ≠
      gaussReduceRetry [[0, 0, 1, 5], [0, 1, 0, 3]] := by
  decide

/-- Amended claim C1: the pivot scan at target row `r` and column `lead`
returns the first row `i ≥ r` whose entry in column `lead` has absolute
value at least the tolerance (`N` when none exists); and when no such row
exists the engine advances `lead` by one column and moves on to the NEXT
target row `r + 1` -- skipping an all-zero column does consume a target
row. -/
theorem gj_scan_and_skip :
    (∀ (M : List (List ℚ)) (lead N fuel r : ℕ), r ≤ N → N ≤ r + fuel →
        r ≤ scanPivot M lead N fuel r ∧ scanPivot M lead N fuel r ≤ N ∧
        (∀ k, r ≤ k → k < scanPivot M lead N fuel r → |get2 M k lead| < tol) ∧
        (scanPivot M lead N fuel r < N → tol ≤ |get2 M (scanPivot M lead N fuel r) lead|)) ∧
    (∀ (N cols fuel r lead : ℕ) (M : List (List ℚ)), ¬ cols - 1 ≤ lead →
        N ≤ scanPivot M lead N N r →
        gjLoop N cols (fuel + 1) r lead M = gjLoop N cols fuel (r + 1) (lead + 1) M) := by
  exact ⟨fun M lead N fuel r h1 h2 => scanPivot_spec M lead N fuel r h1 h2,
    fun N cols fuel r lead M h1 h2 => gjLoop_skip_step N cols fuel r lead M h1 h2⟩

/-- Witness for the amended C1 at a concrete input: scanning `[[0,5]]` at
column 0 starts and ends at valid bounds, and the engine's loop on the
all-zero one-column-short matrix `[[0,0]]` steps to the next target row. -/
theorem gj_scan_and_skip_witness :
    (0 ≤ scanPivot [[(0 : ℚ), 5]] 0 1 1 0 ∧ scanPivot [[(0 : ℚ), 5]] 0 1 1 0 ≤ 1) ∧
      gjLoop 1 2 1 0 0 [[(0 : ℚ), 0]] = gjLoop 1 2 0 1 1 [[(0 : ℚ), 0]] := by
  constructor
  · have h := gj_scan_and_skip.1 [[(0 : ℚ), 5]] 0 1 1 0 (by decide) (by decide)
    exact ⟨h.1, h.2.1⟩
  · exact gj_scan_and_skip.2 1 2 0 0 0 [[(0 : ℚ), 0]] (by decide) (by decide)

/-! ## Helper lemmas for the fixed-point analysis of the reduction loop -/

/-- Reading a valid index of a list yields an element of the list. -/
theorem getD_mem {α : Type} (l : List α) (n : ℕ) (d : α) (h : n < l.length) :
    l.getD n d ∈ l := by
  rw [List.getD_eq_getElem l d h]
  exact List.getElem_mem h

/-- Setting an index of a list to the value it already holds is a no-op. -/
theorem set_getD_eq {α : Type} : ∀ (l : List α) (r : ℕ) (d : α), l.set r (l.getD r d) = l := by
  intro l
  induction l with
  | nil => intro r d; rfl
  | cons a l ih =>
      intro r d
      cases r with
      | zero => rfl
      | succ r => simp only [List.set_cons_succ, List.getD_cons_succ, ih]

/-- Swapping a row with itself is a no-op. -/
theorem swapRows_self (M : List (List ℚ)) (r : ℕ) : swapRows M r r = M := by
  rw [swapRows, List.set_set, set_getD_eq]

/-- The scan stops immediately when started at or beyond the row count. -/
theorem scanPivot_ge_stop (M : List (List ℚ)) (lead N : ℕ) :
    ∀ (fuel i : ℕ), ¬ i < N → scanPivot M lead N fuel i = i := by
  intro fuel i h
  cases fuel with
  | zero => rfl
  | succ fuel => rw [scanPivot, if_neg (fun hc => h hc.1)]

/-- Zipping with the function that keeps its left argument returns the
left list, as long as the right list is at least as long. -/
theorem zipWith_keep_left : ∀ (l1 l2 : List ℚ), l1.length ≤ l2.length →
    List.zipWith (fun a _ => a) l1 l2 = l1 := by
  intro l1
  induction l1 with
  | nil => intro l2 _; rfl
  | cons a l ih =>
      intro l2 hl
      cases l2 with
      | nil => simp at hl
      | cons b l2 =>
          rw [List.zipWith_cons_cons, ih l2 (by simpa using hl)]

/-- Elimination is a no-op on a block of rows whose factor entries are all
exactly zero (except the pivot row, which is skipped). -/
theorem elimRowsAux_self (rowR : List ℚ) (lead r : ℕ) :
    ∀ (rows : List (List ℚ)) (j0 : ℕ),
      (∀ k, k < rows.length → j0 + k ≠ r → (rows.getD k []).getD lead 0 = 0) →
      (∀ k, k < rows.length → (rows.getD k []).length ≤ rowR.length) →
      elimRowsAux rowR lead r j0 rows = rows := by
  intro rows
  induction rows with
  | nil => intro j0 _ _; rfl
  | cons row rest ih =>
      intro j0 hz hl
      rw [elimRowsAux]
      have htail : elimRowsAux rowR lead r (j0 + 1) rest = rest := by
        refine ih (j0 + 1) (fun k hk hne => ?_) (fun k hk => ?_)
        · have := hz (k + 1) (by simpa using Nat.succ_lt_succ hk) (by omega)
          simpa using this
        · have := hl (k + 1) (by simpa using Nat.succ_lt_succ hk)
          simpa using this
      rw [htail]
      by_cases hj : j0 = r
      · rw [if_pos hj]
      · rw [if_neg hj]
        have h0 : row.getD lead 0 = 0 := by
          have := hz 0 (by simp) (by omega)
          simpa using this
        have hlen : row.length ≤ rowR.length := by
          have := hl 0 (by simp)
          simpa using this
        rw [h0]
        simp only [zero_mul, sub_zero]
        rw [zipWith_keep_left row rowR hlen]

/-- The absolute value of one is not below the tolerance. -/
theorem one_not_lt_tol : ¬ |(1 : ℚ)| < tol := by
  rw [tol]
  norm_num

/-- Reduction loop on a matrix in reduced diagonal form: every visited
stage leaves the matrix unchanged, for any remaining fuel, as long as the
row cursor and the column cursor agree (which they do from the start,
since both branches advance them together). -/
theorem gjLoop_fix (cols : ℕ) (M : List (List ℚ))
    (hshape : ∀ row ∈ M, row.length = cols) (hfix : IsReducedFix cols M) :
    ∀ (fuel r : ℕ), gjLoop M.length cols fuel r r M = M := by
  intro fuel
  induction fuel with
  | zero => intro r; rfl
  | succ fuel ih =>
      intro r
      by_cases hb : cols - 1 ≤ r
      · rw [gjLoop, if_pos hb]
      by_cases hrN : r < M.length
      · rcases hfix r hrN (by omega) with hsmall | hpiv
        · have hscan : M.length ≤ scanPivot M r M.length M.length r := by
            obtain ⟨h1, h2, _, h4⟩ :=
              scanPivot_spec M r M.length M.length r (le_of_lt hrN) (by omega)
            by_contra hlt
            push_neg at hlt
            exact absurd (hsmall _ h1 hlt) (not_lt.mpr (h4 hlt))
          rw [gjLoop_skip_step _ _ _ _ _ _ hb hscan]
          exact ih (r + 1)
        · have hscan : scanPivot M r M.length M.length r = r := by
            obtain ⟨h1, _, h3, _⟩ :=
              scanPivot_spec M r M.length M.length r (le_of_lt hrN) (by omega)
            rcases eq_or_lt_of_le h1 with h | h
            · exact h.symm
            · exfalso
              have := h3 r (le_refl r) h
              rw [hpiv.1] at this
              exact one_not_lt_tol this
          rw [gjLoop, if_neg hb]
          simp only [hscan, if_neg (not_le.mpr hrN)]
          have hz : ∀ k, k < M.length → 0 + k ≠ r → (M.getD k []).getD r 0 = 0 := by
            intro k hk hne
            exact hpiv.2 k hk (by omega)
          have hl : ∀ k, k < M.length → (M.getD k []).length ≤ (M.getD r []).length := by
            intro k hk
            have h1 : (M.getD k []).length = cols := hshape _ (getD_mem M k [] hk)
            have h2 : (M.getD r []).length = cols := hshape _ (getD_mem M r [] hrN)
            omega
          have hstep : gjPivotStep M r r r = M := by
            rw [gjPivotStep, swapRows_self, hpiv.1]
            simp only [div_one]
            rw [List.map_id', set_getD_eq]
            exact elimRowsAux_self (M.getD r []) r r M 0 hz hl
          rw [hstep]
          exact ih (r + 1)
      · have hscan : scanPivot M r M.length M.length r = r :=
          scanPivot_ge_stop M r M.length M.length r hrN
        have hskip : M.length ≤ scanPivot M r M.length M.length r := by omega
        rw [gjLoop_skip_step _ _ _ _ _ _ hb hskip]
        exact ih (r + 1)

/-- Elimination preserves the number of rows. -/
theorem elimRowsAux_length (rowR : List ℚ) (lead r : ℕ) :
    ∀ (rows : List (List ℚ)) (j : ℕ), (elimRowsAux rowR lead r j rows).length = rows.length := by
  intro rows
  induction rows with
  | nil => intro j; rfl
  | cons row rest ih => intro j; rw [elimRowsAux]; simp [ih]

/-- Elimination preserves uniform row length, given the pivot row has that
length. -/
theorem elimRowsAux_shape (rowR : List ℚ) (lead r cols : ℕ) (hR : rowR.length = cols) :
    ∀ (rows : List (List ℚ)) (j : ℕ), (∀ row ∈ rows, row.length = cols) →
      ∀ row ∈ elimRowsAux rowR lead r j rows, row.length = cols := by
  intro rows
  induction rows with
  | nil => intro j _ row hrow; simp [elimRowsAux] at hrow
  | cons row rest ih =>
      intro j hshape row2 hrow2
      rw [elimRowsAux] at hrow2
      rcases List.mem_cons.mp hrow2 with h | h
      · subst h
        by_cases hj : j = r
        · rw [if_pos hj]
          exact hshape row (List.mem_cons_self row rest)
        · rw [if_neg hj]
          rw [List.length_zipWith, hR, hshape row (List.mem_cons_self row rest)]
          exact Nat.min_self cols
      · exact ih (j + 1) (fun r2 h2 => hshape r2 (List.mem_cons_of_mem row h2)) row2 h

/-- Pivot processing preserves the row count and uniform row lengths. -/
theorem gjPivotStep_shape (M : List (List ℚ)) (r lead i cols : ℕ)
    (hshape : ∀ row ∈ M, row.length = cols) (hr : r < M.length) (hi : i < M.length) :
    (gjPivotStep M r lead i).length = M.length ∧
      ∀ row ∈ gjPivotStep M r lead i, row.length = cols := by
  have hM1len : (swapRows M r i).length = M.length := by
    simp [swapRows, List.length_set]
  have hM1shape : ∀ row ∈ swapRows M r i, row.length = cols := by
    intro row hrow
    rw [swapRows] at hrow
    rcases List.mem_or_eq_of_mem_set hrow with h | h
    · rcases List.mem_or_eq_of_mem_set h with h2 | h2
      · exact hshape _ h2
      · subst h2; exact hshape _ (getD_mem M i [] hi)
    · subst h; exact hshape _ (getD_mem M r [] hr)
  have hrowR : ((swapRows M r i).getD r []).length = cols :=
    hM1shape _ (getD_mem _ r [] (by rw [hM1len]; exact hr))
  have hM2len : ((swapRows M r i).set r (((swapRows M r i).getD r []).map
      (fun x => x / get2 (swapRows M r i) r lead))).length = M.length := by
    rw [List.length_set, hM1len]
  have hM2shape : ∀ row ∈ (swapRows M r i).set r (((swapRows M r i).getD r []).map
      (fun x => x / get2 (swapRows M r i) r lead)), row.length = cols := by
    intro row hrow
    rcases List.mem_or_eq_of_mem_set hrow with h | h
    · exact hM1shape _ h
    · subst h; rw [List.length_map]; exact hrowR
  have hrowR2 : (((swapRows M r i).set r (((swapRows M r i).getD r []).map
      (fun x => x / get2 (swapRows M r i) r lead))).getD r []).length = cols :=
    hM2shape _ (getD_mem _ r [] (by rw [hM2len]; exact hr))
  constructor
  · rw [gjPivotStep]
    rw [elimRowsAux_length, List.length_set, hM1len]
  · rw [gjPivotStep]
    exact elimRowsAux_shape _ lead r cols hrowR2 _ 0 hM2shape

/-- The reduction loop preserves the row count and uniform row lengths. -/
theorem gjLoop_shape (N cols : ℕ) :
    ∀ (fuel r lead : ℕ) (M : List (List ℚ)), M.length = N →
      (∀ row ∈ M, row.length = cols) →
      (gjLoop N cols fuel r lead M).length = N ∧
        ∀ row ∈ gjLoop N cols fuel r lead M, row.length = cols := by
  intro fuel
  induction fuel with
  | zero => intro r lead M h1 h2; exact ⟨h1, h2⟩
  | succ fuel ih =>
      intro r lead M h1 h2
      by_cases hb : cols - 1 ≤ lead
      · rw [gjLoop, if_pos hb]; exact ⟨h1, h2⟩
      by_cases hscan : N ≤ scanPivot M lead N N r
      · rw [gjLoop_skip_step _ _ _ _ _ _ hb hscan]
        exact ih _ _ _ h1 h2
      · push_neg at hscan
        have hrN : r < N := by
          by_contra hr
          have heq := scanPivot_ge_stop M lead N N r (by omega)
          omega
        rw [gjLoop, if_neg hb]
        simp only [if_neg (not_le.mpr hscan)]
        have hstep := gjPivotStep_shape M r lead (scanPivot M lead N N r) cols h2
          (by omega) (by omega)
        exact ih _ _ _ (by rw [hstep.1, h1]) hstep.2

/-- Bridge between the `row[:-1]` all-scan of the source and the indexed
spec-side condition on the coefficient columns. -/
theorem all_dropLast_iff (row : List ℚ) (cols : ℕ) (h : row.length = cols) :
    (row.dropLast.all (fun x => decide (|x| < tol)) = true) ↔
      ∀ j, j < cols - 1 → |row.getD j 0| < tol := by
  rw [List.all_eq_true]
  constructor
  · intro hall j hj
    have hj2 : j < row.dropLast.length := by rw [List.length_dropLast]; omega
    have hmem := List.getElem_mem hj2
    have hd := hall _ hmem
    rw [decide_eq_true_eq, List.getElem_dropLast] at hd
    rwa [List.getD_eq_getElem row 0 (by omega)]
  · intro hfor x hx
    rw [decide_eq_true_eq]
    obtain ⟨j, hj, rfl⟩ := List.getElem_of_mem hx
    rw [List.getElem_dropLast]
    have hj2 : j < cols - 1 := by rw [List.length_dropLast] at hj; omega
    have := hfor j hj2
    rwa [List.getD_eq_getElem row 0 (by omega)] at this

/-- Bridge between the `row[:-1]` any-scan of the source and the indexed
spec-side pivot-row condition. -/
theorem any_dropLast_iff (row : List ℚ) (cols : ℕ) (h : row.length = cols) :
    (row.dropLast.any (fun x => decide (tol < |x|)) = true) ↔
      ∃ j, j < cols - 1 ∧ tol < |row.getD j 0| := by
  rw [List.any_eq_true]
  constructor
  · intro hex
    obtain ⟨x, hx, hd⟩ := hex
    rw [decide_eq_true_eq] at hd
    obtain ⟨j, hj, rfl⟩ := List.getElem_of_mem hx
    refine ⟨j, by rw [List.length_dropLast] at hj; omega, ?_⟩
    rw [List.getElem_dropLast] at hd
    rwa [List.getD_eq_getElem row 0 (by rw [List.length_dropLast] at hj; omega)]
  · intro hex
    obtain ⟨j, hj, hd⟩ := hex
    have hj2 : j < row.dropLast.length := by rw [List.length_dropLast]; omega
    refine ⟨row.dropLast[j], List.getElem_mem hj2, ?_⟩
    rw [decide_eq_true_eq, List.getElem_dropLast]
    rwa [List.getD_eq_getElem row 0 (by omega)] at hd

/-- The last entry of a row of length `cols ≥ 1` is the entry at index
`cols - 1`. -/
theorem getLast_eq_getD (row : List ℚ) (cols : ℕ) (h : row.length = cols) (hc : 1 ≤ cols) :
    row.getLast? = some (row.getD (cols - 1) 0) := by
  rw [List.getLast?_eq_getElem?]
  have hidx : row.length - 1 = cols - 1 := by omega
  rw [hidx, List.getElem?_eq_getElem (by omega : cols - 1 < row.length),
    List.getD_eq_getElem row 0 (by omega : cols - 1 < row.length)]

/-- The inconsistency scan of the engine computes exactly the spec-side
inconsistency condition on well-shaped matrices (and never raises). -/
theorem checkRows_eq (cols : ℕ) (hc : 1 ≤ cols) :
    ∀ M : List (List ℚ), (∀ row ∈ M, row.length = cols) →
      checkRows M = .ok (decide (InconsSpec cols M)) := by
  intro M
  induction M with
  | nil =>
      intro _
      simp [checkRows, InconsSpec]
  | cons row rest ih =>
      intro hshape
      have hrowlen : row.length = cols := hshape row (List.mem_cons_self row rest)
      have hrest := ih (fun r2 h2 => hshape r2 (List.mem_cons_of_mem row h2))
      rw [checkRows]
      by_cases h1 : ∀ j, j < cols - 1 → |row.getD j 0| < tol
      · rw [if_pos ((all_dropLast_iff row cols hrowlen).mpr h1)]
        rw [getLast_eq_getD row cols hrowlen hc]
        show (if tol < |row.getD (cols - 1) 0| then Except.ok true else checkRows rest) = _
        by_cases h2 : tol < |row.getD (cols - 1) 0|
        · rw [if_pos h2]
          have hIS : InconsSpec cols (row :: rest) :=
            ⟨row, List.mem_cons_self row rest, h1, h2⟩
          rw [decide_eq_true hIS]
        · rw [if_neg h2, hrest]
          have hiff : InconsSpec cols rest ↔ InconsSpec cols (row :: rest) := by
            constructor
            · intro ⟨r2, hr2, hir⟩
              exact ⟨r2, List.mem_cons_of_mem row hr2, hir⟩
            · intro ⟨r2, hr2, hir⟩
              rcases List.mem_cons.mp hr2 with h | h
              · subst h; exact absurd hir.2 h2
              · exact ⟨r2, h, hir⟩
          rw [decide_eq_decide.mpr hiff]
      · rw [if_neg (fun hcontra =>
          h1 ((all_dropLast_iff row cols hrowlen).mp hcontra)), hrest]
        have hiff : InconsSpec cols rest ↔ InconsSpec cols (row :: rest) := by
          constructor
          · intro ⟨r2, hr2, hir⟩
            exact ⟨r2, List.mem_cons_of_mem row hr2, hir⟩
          · intro ⟨r2, hr2, hir⟩
            rcases List.mem_cons.mp hr2 with h | h
            · subst h; exact absurd hir.1 h1
            · exact ⟨r2, h, hir⟩
        rw [decide_eq_decide.mpr hiff]

/-- The pivot-row count of the engine computes exactly the spec-side count
on well-shaped matrices. -/
theorem countP_pivotRows (cols : ℕ) (M : List (List ℚ))
    (hshape : ∀ row ∈ M, row.length = cols) :
    M.countP (fun row => row.dropLast.any (fun x => decide (tol < |x|))) =
      pivotRowsSpec cols M := by
  rw [pivotRowsSpec]
  apply List.countP_congr
  intro row hrow
  rw [any_dropLast_iff row cols (hshape row hrow), decide_eq_true_eq]

/-! ## Claim C2: classification of the reduced system -/

/-- Claim C2: on well-shaped nonempty augmented matrices, the engine
classifies the system as inconsistent exactly when some reduced row has all
coefficient entries within tolerance of zero and a constant entry exceeding
the tolerance; this check has priority over the infinite classification;
otherwise the result is infinite exactly when the number of pivot rows
(rows with a coefficient entry exceeding tolerance) is less than the number
of variables `cols - 1`, and unique otherwise. -/
theorem gauss_classification (A : List (List ℚ)) (hA : A ≠ [])
    (hc : 1 ≤ (A.headD []).length)
    (hshape : ∀ row ∈ A, row.length = (A.headD []).length) :
    (gauss_jordan_elimination A = .ok .inconsistent ↔
      InconsSpec (A.headD []).length (gaussReduce A)) ∧
    (gauss_jordan_elimination A = .ok .infinite ↔
      ¬ InconsSpec (A.headD []).length (gaussReduce A) ∧
        pivotRowsSpec (A.headD []).length (gaussReduce A) < (A.headD []).length - 1) ∧
    (gauss_jordan_elimination A = .ok .unique ↔
      ¬ InconsSpec (A.headD []).length (gaussReduce A) ∧
        ¬ pivotRowsSpec (A.headD []).length (gaussReduce A) < (A.headD []).length - 1) := by
  obtain ⟨a, rest, rfl⟩ := List.exists_cons_of_ne_nil hA
  simp only [List.headD_cons] at hc hshape ⊢
  have hred : gaussReduce (a :: rest) =
      gjLoop (a :: rest).length a.length (a :: rest).length 0 0 (a :: rest) := by
    rw [gaussReduce, List.headD_cons]
  have hM := gjLoop_shape (a :: rest).length a.length (a :: rest).length 0 0 (a :: rest)
    rfl hshape
  rw [← hred] at hM
  rw [gauss_jordan_elimination]
  simp only [← hred]
  rw [checkRows_eq a.length hc _ hM.2]
  rw [countP_pivotRows a.length _ hM.2]
  by_cases hI : InconsSpec a.length (gaussReduce (a :: rest))
  · rw [decide_eq_true hI]
    refine ⟨⟨fun _ => hI, fun _ => rfl⟩, ⟨fun h => ?_, fun h => absurd hI h.1⟩,
      ⟨fun h => ?_, fun h => absurd hI h.1⟩⟩
    · exact absurd (Except.ok.inj h) (by simp)
    · exact absurd (Except.ok.inj h) (by simp)
  · rw [decide_eq_false hI]
    by_cases hp : pivotRowsSpec a.length (gaussReduce (a :: rest)) < a.length - 1
    · rw [if_pos hp]
      refine ⟨⟨fun h => ?_, fun h => absurd h hI⟩, ⟨fun _ => ⟨hI, hp⟩, fun _ => rfl⟩,
        ⟨fun h => ?_, fun h => absurd hp h.2⟩⟩
      · exact absurd (Except.ok.inj h) (by simp)
      · exact absurd (Except.ok.inj h) (by simp)
    · rw [if_neg hp]
      refine ⟨⟨fun h => ?_, fun h => absurd h hI⟩, ⟨fun h => ?_, fun h => absurd h.2 hp⟩,
        ⟨fun _ => ⟨hI, hp⟩, fun _ => rfl⟩⟩
      · exact absurd (Except.ok.inj h) (by simp)
      · exact absurd (Except.ok.inj h) (by simp)

/-- Witness for C2: the system `x+y=2, x-y=0` is classified as having a
unique solution, via the classification equivalence at this concrete
input. -/
theorem gauss_classification_witness :
    gauss_jordan_elimination [[1, 1, 2], [1, -1, 0]] = .ok .unique := by
  refine (gauss_classification [[1, 1, 2], [1, -1, 0]] (by decide) (by decide)
    (by decide)).2.2.mpr ⟨?_, ?_⟩
  · decide
  · unfold pivotRowsSpec
    decide

/-! ## Claim C7: idempotence of the reduction -/

/-- Counterexample to claim C7: on `[[0,0,0],[1e-13,1e-12,0]]` the first
run skips column 0 (both entries are below tolerance) and then normalizes
the second row by its pivot `1e-12`, amplifying the sub-tolerance entry
`1e-13` to `0.1`; the second run then finds `0.1` as a pivot in column 0
and produces a different matrix, so the reduction is not idempotent. -/
theorem gaussReduce_not_idempotent :
    gaussReduce (gaussReduce [[0, 0, 0], [1 / 10 ^ 13, 1 / 10 ^ 12, 0]]) ≠
      gaussReduce [[0, 0, 0], [1 / 10 ^ 13, 1 / 10 ^ 12, 0]] := by
  decide

/-- Amended claim C7: the reduction is not idempotent in general (first-run
output can contain entries that the tolerance treated as zero but later
arithmetic amplified); however, every matrix in reduced diagonal form --
each visited stage has either an all-below-tolerance pivot column from the
target row down, or a unit diagonal entry with exact zeros elsewhere in its
column -- is a fixed point of the reduction. -/
theorem gaussReduce_fixed_point (M : List (List ℚ))
    (hshape : ∀ row ∈ M, row.length = (M.headD []).length)
    (hfix : IsReducedFix (M.headD []).length M) :
    gaussReduce M = M := by
  rw [gaussReduce]
  exact gjLoop_fix (M.headD []).length M hshape hfix M.length 0

/-- Witness for the amended C7: the already-reduced augmented matrix
`[[1,0,5],[0,1,3]]` is a fixed point of the reduction. -/
theorem gaussReduce_fixed_point_witness :
    gaussReduce [[1, 0, 5], [0, 1, 3]] = [[1, 0, 5], [0, 1, 3]] := by
  refine gaussReduce_fixed_point _ (by decide) ?_
  unfold IsReducedFix
  decide

/-! ## Helper lemmas for the determinant correctness proof -/

/-- Swapping a row with itself leaves the matrix unchanged. -/
theorem swapFun_self {n : ℕ} (M : Matrix (Fin n) (Fin n) ℚ) (i : Fin n) :
    swapFun M i i = M := by
  ext r c
  rw [swapFun, Matrix.of_apply]
  by_cases h : r = i
  · rw [if_pos h, h]
  · rw [if_neg h, if_neg h]

/-- The row swap is the row permutation by the transposition. -/
theorem swapFun_eq_submatrix {n : ℕ} (M : Matrix (Fin n) (Fin n) ℚ) (i p : Fin n) :
    swapFun M i p = M.submatrix (Equiv.swap i p) id := by
  ext r c
  rw [swapFun, Matrix.of_apply, Matrix.submatrix_apply, Equiv.swap_apply_def]
  rfl

/-- Swapping two distinct rows negates the determinant. -/
theorem det_swapFun {n : ℕ} (M : Matrix (Fin n) (Fin n) ℚ) (i p : Fin n) (h : i ≠ p) :
    (swapFun M i p).det = -M.det := by
  rw [swapFun_eq_submatrix, Matrix.det_permute, Equiv.Perm.sign_swap h]
  simp

/-- The elimination matrix is unitriangular, hence has determinant one. -/
theorem det_elimMat {n : ℕ} (M : Matrix (Fin n) (Fin n) ℚ) (i : Fin n) (piv : ℚ) :
    (elimMat M i piv).det = 1 := by
  have htri : (elimMat M i piv).BlockTriangular OrderDual.toDual := by
    intro r c hrc
    rw [elimMat, Matrix.of_apply]
    have hrc2 : r < c := hrc
    rw [if_neg (by intro h; rw [h] at hrc2; exact lt_irrefl c hrc2),
      if_neg (by intro hcc; exact absurd (lt_trans hcc.2 (hcc.1 ▸ hrc2)) (lt_irrefl i))]
  rw [Matrix.det_of_lowerTriangular _ htri]
  apply Finset.prod_eq_one
  intro j _
  rw [elimMat, Matrix.of_apply, if_pos rfl]

/-- On matrices whose pivot row vanishes left of the pivot column, the
column-restricted elimination of the engine agrees with left-multiplication
by the elimination matrix (a full row operation). -/
theorem elimBelow_eq_mul {n : ℕ} (M : Matrix (Fin n) (Fin n) ℚ) (i : Fin n) (piv : ℚ)
    (hleft : ∀ c : Fin n, (c : ℕ) < (i : ℕ) → M i c = 0) :
    elimBelow M i piv = elimMat M i piv * M := by
  ext r c
  have hsummand : ∀ k : Fin n, elimMat M i piv r k * M k c =
      (if k = r then M r c else 0) + (if k = i ∧ i < r then -(M r i / piv) * M i c else 0) := by
    intro k
    rw [elimMat, Matrix.of_apply]
    by_cases hkr : k = r
    · subst hkr
      rw [if_pos rfl, if_pos rfl, one_mul,
        if_neg (by intro hcc; have hx := hcc.2; rw [hcc.1] at hx; exact absurd hx (lt_irrefl i)),
        add_zero]
    · rw [if_neg (fun h => hkr h.symm), if_neg hkr, zero_add]
      by_cases hki : k = i ∧ i < r
      · obtain ⟨rfl, hir⟩ := hki
        rw [if_pos ⟨rfl, hir⟩, if_pos ⟨rfl, hir⟩]
      · rw [if_neg hki, if_neg hki, zero_mul]
  rw [Matrix.mul_apply]
  simp only [hsummand]
  rw [Finset.sum_add_distrib, Finset.sum_ite_eq' Finset.univ r (fun _ => M r c)]
  by_cases hir : i < r
  · have hcond : ∀ k : Fin n, (if k = i ∧ i < r then -(M r i / piv) * M i c else 0) =
        (if k = i then -(M r i / piv) * M i c else 0) := by
      intro k
      by_cases hk : k = i
      · rw [if_pos ⟨hk, hir⟩, if_pos hk]
      · rw [if_neg (fun h => hk h.1), if_neg hk]
    simp only [hcond]
    rw [Finset.sum_ite_eq' Finset.univ i (fun _ => -(M r i / piv) * M i c)]
    simp only [Finset.mem_univ, if_pos]
    rw [elimBelow, Matrix.of_apply]
    by_cases hic : i ≤ c
    · rw [if_pos ⟨hir, hic⟩]; ring
    · rw [if_neg (fun h => hic h.2)]
      have h0 : M i c = 0 := hleft c (Fin.not_le.mp hic)
      rw [h0]; ring
  · have hcond : ∀ k : Fin n, (if k = i ∧ i < r then -(M r i / piv) * M i c else 0) = 0 :=
      fun k => if_neg (fun h => hir h.2)
    simp only [hcond, Finset.sum_const_zero, add_zero, Finset.mem_univ, if_pos]
    rw [elimBelow, Matrix.of_apply, if_neg (fun h => hir h.1)]

/-- Eliminating below the pivot row preserves the determinant, given the
pivot row vanishes left of the pivot column (so that the column-restricted
update is a genuine row operation). -/
theorem det_elimBelow {n : ℕ} (M : Matrix (Fin n) (Fin n) ℚ) (i : Fin n) (piv : ℚ)
    (hleft : ∀ c : Fin n, (c : ℕ) < (i : ℕ) → M i c = 0) :
    (elimBelow M i piv).det = M.det := by
  rw [elimBelow_eq_mul M i piv hleft, Matrix.det_mul, det_elimMat, one_mul]

/-- Unfolding of a successor stage of the determinant loop. -/
theorem detLoop_succ_eq {n : ℕ} (k i : ℕ) (M : Matrix (Fin n) (Fin n) ℚ) (d : ℚ)
    (h : i < n) :
    detLoop (k + 1) i M d =
      if |M (pivotIdx M ⟨i, h⟩) ⟨i, h⟩| < tol then none
      else
        detLoop k (i + 1)
          (elimBelow (swapFun M ⟨i, h⟩ (pivotIdx M ⟨i, h⟩)) ⟨i, h⟩
            (swapFun M ⟨i, h⟩ (pivotIdx M ⟨i, h⟩) ⟨i, h⟩ ⟨i, h⟩))
          ((if pivotIdx M ⟨i, h⟩ = ⟨i, h⟩ then d else -d) *
            swapFun M ⟨i, h⟩ (pivotIdx M ⟨i, h⟩) ⟨i, h⟩ ⟨i, h⟩) := by
  rw [detLoop, dif_pos h]

/-- Positivity of the tolerance constant. -/
theorem tol_pos : (0 : ℚ) < tol := by
  rw [tol]
  norm_num

/-- Correctness invariant of the determinant loop: starting a stage `i`
with zeros below the diagonal in the first `i` columns and nonzero leading
diagonal entries, a successful run multiplies the accumulator by exactly
the factor that completes it to `d` times the determinant. -/
theorem detLoop_correct {n : ℕ} :
    ∀ (k i : ℕ), i + k = n →
      ∀ (M : Matrix (Fin n) (Fin n) ℚ) (d v : ℚ),
        (∀ r c : Fin n, (c : ℕ) < i → (c : ℕ) < (r : ℕ) → M r c = 0) →
        (∀ j : Fin n, (j : ℕ) < i → M j j ≠ 0) →
        detLoop k i M d = some v →
        v * ∏ j in Finset.univ.filter (fun j : Fin n => (j : ℕ) < i), M j j = d * M.det := by
  intro k
  induction k with
  | zero =>
      intro i hin M d v hLL hdiag hloop
      rw [detLoop] at hloop
      have hv : d = v := Option.some.inj hloop
      have hfilter : Finset.univ.filter (fun j : Fin n => (j : ℕ) < i) = Finset.univ := by
        apply Finset.filter_true_of_mem
        intro j _
        have := j.isLt
        omega
      have hdet : M.det = ∏ j, M j j := by
        apply Matrix.det_of_upperTriangular
        intro a b hab
        have hb := b.isLt
        exact hLL a b (by omega) hab
      rw [hfilter, ← hv, hdet]
  | succ k ih =>
      intro i hin M d v hLL hdiag hloop
      have h : i < n := by omega
      have hival : ((⟨i, h⟩ : Fin n) : ℕ) = i := rfl
      rw [detLoop_succ_eq k i M d h] at hloop
      by_cases hpiv : |M (pivotIdx M ⟨i, h⟩) ⟨i, h⟩| < tol
      · rw [if_pos hpiv] at hloop
        exact Option.noConfusion hloop
      rw [if_neg hpiv] at hloop
      obtain ⟨p, hpdef⟩ : ∃ p, pivotIdx M ⟨i, h⟩ = p := ⟨_, rfl⟩
      rw [hpdef] at hloop hpiv
      obtain ⟨M1, hM1def⟩ : ∃ M1, swapFun M ⟨i, h⟩ p = M1 := ⟨_, rfl⟩
      rw [hM1def] at hloop
      obtain ⟨piv, hpivdef⟩ : ∃ piv, M1 ⟨i, h⟩ ⟨i, h⟩ = piv := ⟨_, rfl⟩
      rw [hpivdef] at hloop
      obtain ⟨M2, hM2def⟩ : ∃ M2, elimBelow M1 ⟨i, h⟩ piv = M2 := ⟨_, rfl⟩
      rw [hM2def] at hloop
      obtain ⟨d1, hd1def⟩ : ∃ d1 : ℚ, (if p = ⟨i, h⟩ then d else -d) = d1 := ⟨_, rfl⟩
      rw [hd1def] at hloop
      have hpge : i ≤ (p : ℕ) := by
        have := pivotIdx_ge M ⟨i, h⟩
        rw [hpdef] at this
        exact this
      have hpval : piv = M p ⟨i, h⟩ := by
        rw [← hpivdef, ← hM1def, swapFun, Matrix.of_apply, if_pos rfl]
      have hpiv0 : piv ≠ 0 := by
        rw [hpval]
        intro h0
        rw [h0] at hpiv
        exact hpiv (by rw [abs_zero]; exact tol_pos)
      have hLL1 : ∀ r c : Fin n, (c : ℕ) < i → (c : ℕ) < (r : ℕ) → M1 r c = 0 := by
        intro r c hc hcr
        rw [← hM1def, swapFun, Matrix.of_apply]
        by_cases h1 : r = ⟨i, h⟩
        · rw [if_pos h1]
          exact hLL p c hc (by omega)
        · rw [if_neg h1]
          by_cases h2 : r = p
          · rw [if_pos h2]
            exact hLL ⟨i, h⟩ c hc (by omega)
          · rw [if_neg h2]
            exact hLL r c hc hcr
      have hleft1 : ∀ c : Fin n, (c : ℕ) < ((⟨i, h⟩ : Fin n) : ℕ) → M1 ⟨i, h⟩ c = 0 := by
        intro c hc
        exact hLL1 ⟨i, h⟩ c (by omega) (by omega)
      have hLL2 : ∀ r c : Fin n, (c : ℕ) < i + 1 → (c : ℕ) < (r : ℕ) → M2 r c = 0 := by
        intro r c hc hcr
        rw [← hM2def, elimBelow, Matrix.of_apply]
        by_cases hcis : (c : ℕ) < i
        · rw [if_neg (fun hx => absurd (Fin.le_def.mp hx.2) (by omega))]
          exact hLL1 r c hcis hcr
        · have hci : (c : ℕ) = i := by omega
          have hir : (⟨i, h⟩ : Fin n) < r := by
            rw [Fin.lt_def]
            omega
          have hic : (⟨i, h⟩ : Fin n) ≤ c := by
            rw [Fin.le_def]
            omega
          rw [if_pos ⟨hir, hic⟩]
          have hceq : c = ⟨i, h⟩ := Fin.ext hci
          rw [hceq, hpivdef, div_mul_cancel₀ _ hpiv0, sub_self]
      have hentry : ∀ j : Fin n, (j : ℕ) < i → M2 j j = M j j := by
        intro j hj
        rw [← hM2def, elimBelow, Matrix.of_apply,
          if_neg (fun hx => absurd (Fin.lt_def.mp hx.1) (by omega))]
        rw [← hM1def, swapFun, Matrix.of_apply,
          if_neg (fun he => absurd (congrArg Fin.val he) (by omega)),
          if_neg (fun he => absurd (congrArg Fin.val he) (by omega))]
      have hdiag2 : ∀ j : Fin n, (j : ℕ) < i + 1 → M2 j j ≠ 0 := by
        intro j hj
        by_cases hji : (j : ℕ) < i
        · rw [hentry j hji]
          exact hdiag j hji
        · have hjeq : j = ⟨i, h⟩ := Fin.ext (by omega)
          rw [hjeq, ← hM2def, elimBelow, Matrix.of_apply,
            if_neg (fun hx => absurd (Fin.lt_def.mp hx.1) (by omega)), hpivdef]
          exact hpiv0
      have hIH := ih (i + 1) (by omega) M2 (d1 * piv) v hLL2 hdiag2 hloop
      have hfilter : Finset.univ.filter (fun j : Fin n => (j : ℕ) < i + 1) =
          insert (⟨i, h⟩ : Fin n) (Finset.univ.filter (fun j : Fin n => (j : ℕ) < i)) := by
        ext j
        simp only [Finset.mem_insert, Finset.mem_filter, Finset.mem_univ, true_and]
        constructor
        · intro hj
          by_cases hji : (j : ℕ) < i
          · exact Or.inr hji
          · exact Or.inl (Fin.ext (by omega))
        · intro hj
          rcases hj with hj | hj
          · rw [hj]
            omega
          · omega
      have hnotmem : (⟨i, h⟩ : Fin n) ∉ Finset.univ.filter (fun j : Fin n => (j : ℕ) < i) := by
        simp
      rw [hfilter, Finset.prod_insert hnotmem] at hIH
      have hM2ii : M2 ⟨i, h⟩ ⟨i, h⟩ = piv := by
        rw [← hM2def, elimBelow, Matrix.of_apply,
          if_neg (fun hx => absurd (Fin.lt_def.mp hx.1) (by omega)), hpivdef]
      rw [hM2ii] at hIH
      have hprodeq : (∏ j in Finset.univ.filter (fun j : Fin n => (j : ℕ) < i), M2 j j) =
          ∏ j in Finset.univ.filter (fun j : Fin n => (j : ℕ) < i), M j j :=
        Finset.prod_congr rfl (fun j hj => hentry j (Finset.mem_filter.mp hj).2)
      rw [hprodeq] at hIH
      have hdet2 : M2.det = M1.det := by
        rw [← hM2def]
        exact det_elimBelow M1 ⟨i, h⟩ piv hleft1
      rw [hdet2] at hIH
      by_cases hpeq : p = ⟨i, h⟩
      · have hM1M : M1 = M := by
          rw [← hM1def, hpeq]
          exact swapFun_self M ⟨i, h⟩
        have hd1d : d1 = d := by rw [← hd1def, if_pos hpeq]
        rw [hM1M, hd1d] at hIH
        exact mul_left_cancel₀ hpiv0 (by linear_combination hIH)
      · have hdetM1 : M1.det = -M.det := by
          rw [← hM1def]
          exact det_swapFun M ⟨i, h⟩ p (fun he => hpeq he.symm)
        have hd1d : d1 = -d := by rw [← hd1def, if_neg hpeq]
        rw [hdetM1, hd1d] at hIH
        exact mul_left_cancel₀ hpiv0 (by linear_combination hIH)

/-- Completed runs of the determinant loop compute the determinant. -/
theorem detLoop_det {n : ℕ} (M : Matrix (Fin n) (Fin n) ℚ) (v : ℚ)
    (h : detLoop n 0 M 1 = some v) : v = M.det := by
  have hc := detLoop_correct n 0 (by omega) M 1 v
    (fun r c hc _ => absurd hc (Nat.not_lt_zero _))
    (fun j hj => absurd hj (Nat.not_lt_zero _)) h
  have hfe : Finset.univ.filter (fun j : Fin n => (j : ℕ) < 0) = ∅ := by
    apply Finset.filter_false_of_mem
    intro j _
    omega
  rw [hfe, Finset.prod_empty, mul_one, one_mul] at hc
  exact hc

/-- Length of the list transpose. -/
theorem transposeL_length (A : List (List ℚ)) :
    (transposeL A).length = (A.headD []).length := by
  simp [transposeL]

/-- Entries of the list transpose. -/
theorem get2_transposeL (A : List (List ℚ)) (i j : ℕ)
    (hi : i < (A.headD []).length) (hj : j < A.length) :
    get2 (transposeL A) i j = get2 A j i := by
  rw [get2, get2, transposeL]
  have h1 : i < ((List.range (A.headD []).length).map
      (fun j2 => A.map (fun row => row.getD j2 0))).length := by
    simpa using hi
  rw [List.getD_eq_getElem _ _ h1, List.getElem_map, List.getElem_range]
  have h2 : j < (A.map (fun row => row.getD i 0)).length := by
    simpa using hj
  rw [List.getD_eq_getElem _ _ h2, List.getElem_map, List.getD_eq_getElem A [] hj]

/-- A successful value result of the determinant engine comes from a
completed loop run on a square matrix. -/
theorem determinant_value_loop (B : List (List ℚ)) (v : ℚ)
    (h : determinant B = DetResult.value v) :
    detLoop B.length 0 (toMat B) 1 = some v ∧ ∀ row ∈ B, row.length = B.length := by
  rw [determinant] at h
  by_cases hsh : B.any (fun row => row.length != B.length) = true
  · rw [if_pos hsh] at h
    exact DetResult.noConfusion h
  · rw [if_neg hsh] at h
    refine ⟨?_, ?_⟩
    · cases hdl : detLoop B.length 0 (toMat B) 1 with
      | none =>
          rw [hdl] at h
          exact DetResult.noConfusion h
      | some d =>
          rw [hdl] at h
          exact congrArg some (DetResult.value.inj h)
    · intro row hrow
      have hfalse : B.any (fun row => row.length != B.length) = false :=
        Bool.eq_false_iff.mpr hsh
      rw [List.any_eq_false] at hfalse
      have hb := hfalse row hrow
      by_contra hne
      exact hb (by simpa using hne)

/-! ## Claim C8: determinant of the transpose -/

/-- Counterexample to claim C8: on `[[1e-13,1],[0,100]]` the engine reports
singular (the column-0 candidates `1e-13` and `0` are both below
tolerance), while on the transpose it completes with the nonzero value
`1e-11` (pivot `1` is found in column 0, and the stage-1 pivot `-1e-11`
passes the tolerance); the two results differ. -/
theorem determinant_transpose_counterexample :
    determinant [[1 / 10 ^ 13, 1], [0, 100]] ≠
      determinant (transposeL [[1 / 10 ^ 13, 1], [0, 100]]) := by
  decide

/-- Amended claim C8: whenever the determinant engine completes on both a
square matrix and its transpose without the below-tolerance singular
short-circuit, the two computed values are equal (each equals the exact
determinant).  With the short-circuit the equality can fail, as the
counterexample shows. -/
theorem determinant_transpose_eq (A : List (List ℚ)) (v w : ℚ)
    (hv : determinant A = DetResult.value v)
    (hw : determinant (transposeL A) = DetResult.value w) :
    v = w := by
  obtain ⟨hvloop, hvshape⟩ := determinant_value_loop A v hv
  obtain ⟨hwloop, _⟩ := determinant_value_loop (transposeL A) w hw
  have hvdet : v = (toMat A).det := detLoop_det (toMat A) v hvloop
  have hwdet : w = (toMat (transposeL A)).det := detLoop_det (toMat (transposeL A)) w hwloop
  by_cases hAnil : A = []
  · subst hAnil
    rw [hvdet, hwdet]
    rw [Matrix.det_fin_zero, Matrix.det_fin_zero]
  · obtain ⟨a, t, rfl⟩ := List.exists_cons_of_ne_nil hAnil
    have hhead : ((a :: t).headD []).length = (a :: t).length := by
      rw [List.headD_cons]
      exact hvshape a (List.mem_cons_self a t)
    have hlen : (transposeL (a :: t)).length = (a :: t).length := by
      rw [transposeL_length, hhead]
    have hmat : toMat (transposeL (a :: t)) =
        ((toMat (a :: t)).transpose).submatrix (Fin.cast hlen) (Fin.cast hlen) := by
      ext r c
      show get2 (transposeL (a :: t)) r.val c.val =
        get2 (a :: t) (Fin.cast hlen c).val (Fin.cast hlen r).val
      have hcv : (Fin.cast hlen c).val = c.val := rfl
      have hrv : (Fin.cast hlen r).val = r.val := rfl
      rw [hcv, hrv]
      have hri := r.isLt
      have hci := c.isLt
      have htl := transposeL_length (a :: t)
      exact get2_transposeL (a :: t) r.val c.val (by omega) (by omega)
    rw [hvdet, hwdet, hmat]
    rw [show (((toMat (a :: t)).transpose).submatrix (Fin.cast hlen) (Fin.cast hlen)) =
        (((toMat (a :: t)).transpose).submatrix (finCongr hlen) (finCongr hlen)) from rfl]
    rw [Matrix.det_submatrix_equiv_self, Matrix.det_transpose]

/-- Witness for the amended C8: the engine computes `-20` on the known
3-by-3 matrix and on its transpose, and the equality theorem applies. -/
theorem determinant_transpose_eq_witness :
    determinant [[2, 5, 3], [1, -2, -1], [1, 3, 4]] = DetResult.value (-20) ∧
      (-20 : ℚ) = -20 := by
  constructor
  · decide
  · exact determinant_transpose_eq [[2, 5, 3], [1, -2, -1], [1, 3, 4]] (-20) (-20)
      (by decide) (by decide)

/-! ## Claim C5: mutation of caller-supplied matrices -/

/-- Counterexample to claim C5: the `test.py` engine call
`gauss_jordan_elimination([[2,0,2]])` does not leave the caller-supplied
matrix unchanged -- after the call the caller's list holds the reduced
matrix `[[1,0,1]]`, because that implementation works on `aug_matrix`
itself rather than on a copy. -/
theorem caller_matrix_counterexample :
    tGaussCallerMatrix [[2, 0, 2]] ≠ .ok [[2, 0, 2]] := by
  decide

/-- Amended claim C5: the three engines of `MatrixOperations.py` (solve,
determinant, inverse) copy their input and leave the caller-supplied
matrix unchanged; the near-duplicate `gauss_jordan_elimination` of
`test.py` instead reduces the caller's list in place, leaving the reduced
matrix behind (here: `[[4,0,2]]` is left as `[[1,0,1/2]]`). -/
theorem engines_caller_matrix :
    (∀ A : List (List ℚ), gaussCallerMatrix A = A) ∧
    (∀ A : List (List ℚ), determinantCallerMatrix A = A) ∧
    (∀ A : List (List ℚ), inverseCallerMatrix A = A) ∧
    tGaussCallerMatrix [[4, 0, 2]] = .ok [[1, 0, 1 / 2]] := by
  exact ⟨fun _ => rfl, fun _ => rfl, fun _ => rfl, by decide⟩

/-! ## Character-level facts for the parser proofs -/

/-- Numeric bounds of a digit character. -/
theorem isDigit_toNat (c : Char) (h : c.isDigit = true) :
    48 ≤ c.toNat ∧ c.toNat ≤ 57 := by
  rw [Char.isDigit] at h
  simp [Bool.and_eq_true, decide_eq_true_eq] at h
  exact ⟨h.1, h.2⟩

/-- Numeric bounds of a letter character. -/
theorem isAlpha_toNat (c : Char) (h : c.isAlpha = true) :
    (65 ≤ c.toNat ∧ c.toNat ≤ 90) ∨ (97 ≤ c.toNat ∧ c.toNat ≤ 122) := by
  rw [Char.isAlpha] at h
  simp [Char.isUpper, Char.isLower, Bool.or_eq_true, Bool.and_eq_true,
    decide_eq_true_eq] at h
  rcases h with h | h
  · exact Or.inl h
  · exact Or.inr h

/-- Characters that can occur in a rendered term or right-hand side are
signs, digits or letters; none of them is `=`, a newline or a space, and
none is Python whitespace. -/
theorem good_char_facts (c : Char)
    (h : c = '+' ∨ c = '-' ∨ c.isDigit = true ∨ c.isAlpha = true) :
    c ≠ '=' ∧ c ≠ '\n' ∧ (c != ' ') = true ∧ isPySpace c = false := by
  have heq : ('=' : Char).toNat = 61 := by decide
  have hnl : ('\n' : Char).toNat = 10 := by decide
  have hsp : (' ' : Char).toNat = 32 := by decide
  have hbounds : (43 ≤ c.toNat ∧ c.toNat ≤ 45) ∨ (48 ≤ c.toNat ∧ c.toNat ≤ 57) ∨
      (65 ≤ c.toNat ∧ c.toNat ≤ 122) := by
    rcases h with rfl | rfl | h | h
    · exact Or.inl (by decide)
    · exact Or.inl (by decide)
    · exact Or.inr (Or.inl (isDigit_toNat c h))
    · rcases isAlpha_toNat c h with h2 | h2
      · exact Or.inr (Or.inr ⟨h2.1, by omega⟩)
      · exact Or.inr (Or.inr ⟨by omega, h2.2⟩)
  refine ⟨fun he => ?_, fun he => ?_, ?_, ?_⟩
  · rw [he, heq] at hbounds
    omega
  · rw [he, hnl] at hbounds
    omega
  · rw [bne_iff_ne]
    intro he
    rw [he, hsp] at hbounds
    omega
  · rw [isPySpace, decide_eq_false_iff_not]
    push_neg
    refine ⟨?_, ?_, ?_, ?_⟩ <;> omega

/-- Every character of a rendered well-formed term is a sign, a digit or a
letter. -/
theorem renderTerm_chars (t : RTerm) (h : WFTerm t) :
    ∀ c ∈ renderTerm t, c = '+' ∨ c = '-' ∨ c.isDigit = true ∨ c.isAlpha = true := by
  intro c hc
  rw [renderTerm] at hc
  rcases List.mem_append.mp hc with hc | hc
  · rcases List.mem_append.mp hc with hc | hc
    · rcases ht : t.sgn with _ | b
      · rw [ht] at hc
        simp at hc
      · rcases b with _ | _ <;> rw [ht] at hc <;> simp at hc <;> subst hc
        · exact Or.inr (Or.inl rfl)
        · exact Or.inl rfl
    · rcases hd : t.coefDigits with _ | ds
      · rw [hd] at hc
        simp at hc
      · rw [hd] at hc
        have h2 := h.2
        rw [hd] at h2
        exact Or.inr (Or.inr (Or.inl (h2.2 c hc)))
  · simp at hc
    subst hc
    exact Or.inr (Or.inr (Or.inr h.1))

/-- Every character of a rendered well-formed term list is a sign, a digit
or a letter. -/
theorem renderTerms_chars (ts : List RTerm) (h : ∀ t ∈ ts, WFTerm t) :
    ∀ c ∈ renderTerms ts, c = '+' ∨ c = '-' ∨ c.isDigit = true ∨ c.isAlpha = true := by
  induction ts with
  | nil => intro c hc; simp [renderTerms] at hc
  | cons t ts ih =>
      intro c hc
      rw [renderTerms] at hc
      rcases List.mem_append.mp hc with hc | hc
      · exact renderTerm_chars t (h t (List.mem_cons_self t ts)) c hc
      · exact ih (fun t2 ht2 => h t2 (List.mem_cons_of_mem t ht2)) c hc

/-- Every character of a rendered right-hand side is a sign or a digit. -/
theorem renderRhs_chars (e : REqn) (h : WFEqn e) :
    ∀ c ∈ (match e.rhsSgn with
      | none => ([] : List Char) | some true => ['+'] | some false => ['-']) ++ e.rhsDigits,
      c = '+' ∨ c = '-' ∨ c.isDigit = true ∨ c.isAlpha = true := by
  intro c hc
  rcases List.mem_append.mp hc with hc | hc
  · rcases hs : e.rhsSgn with _ | b
    · rw [hs] at hc
      simp at hc
    · rcases b with _ | _ <;> rw [hs] at hc <;> simp at hc <;> subst hc
      · exact Or.inr (Or.inl rfl)
      · exact Or.inl rfl
  · exact Or.inr (Or.inr (Or.inl (h.2.2 c hc)))

/-- Every character of a rendered well-formed equation is a sign, digit or
letter, or the `=` separator. -/
theorem renderEqn_chars (e : REqn) (h : WFEqn e) :
    ∀ c ∈ renderEqn e,
      (c = '+' ∨ c = '-' ∨ c.isDigit = true ∨ c.isAlpha = true) ∨ c = '=' := by
  intro c hc
  rw [renderEqn] at hc
  rcases List.mem_append.mp hc with hc | hc
  · exact Or.inl (renderTerms_chars e.terms h.1 c hc)
  · rcases List.mem_cons.mp hc with hc | hc
    · exact Or.inr hc
    · exact Or.inl (renderRhs_chars e h c hc)

/-- A rendered equation is never the empty string. -/
theorem renderEqn_ne_nil (e : REqn) : renderEqn e ≠ [] := by
  rw [renderEqn]
  intro h
  exact absurd (List.append_eq_nil.mp h).2 (List.cons_ne_nil _ _)

/-! ## Splitting and stripping of rendered text -/

/-- Splitting a list that does not contain the separator gives one piece. -/
theorem pySplit_not_mem (sep : Char) : ∀ l, sep ∉ l → pySplit sep l = [l] := by
  intro l
  induction l with
  | nil => intro _; rfl
  | cons c rest ih =>
      intro h
      rw [pySplit, ih (fun hm => h (List.mem_cons_of_mem c hm)),
        if_neg (fun hc => h (by rw [← hc]; exact List.mem_cons_self c rest))]
      rfl

/-- Splitting peels off the first separator occurrence. -/
theorem pySplit_append (sep : Char) (r : List Char) :
    ∀ l, sep ∉ l → pySplit sep (l ++ sep :: r) = l :: pySplit sep r := by
  intro l
  induction l with
  | nil => simp [pySplit]
  | cons c rest ih =>
      intro h
      rw [List.cons_append, pySplit, ih (fun hm => h (List.mem_cons_of_mem c hm)),
        if_neg (fun hc => h (by rw [← hc]; exact List.mem_cons_self c rest))]
      rfl

/-- Dropping while a predicate fails at the head is a no-op. -/
theorem dropWhile_eq_self_of_head (q : Char → Bool) (l : List Char)
    (h : ∀ c, l.head? = some c → q c = false) : l.dropWhile q = l := by
  cases l with
  | nil => rfl
  | cons c rest =>
      rw [List.dropWhile_cons, h c rfl]
      simp

/-- Stripping text whose first and last characters are not whitespace is a
no-op. -/
theorem pyStrip_eq_self (l : List Char)
    (h1 : ∀ c, l.head? = some c → isPySpace c = false)
    (h2 : ∀ c, l.getLast? = some c → isPySpace c = false) : pyStrip l = l := by
  rw [pyStrip, dropWhile_eq_self_of_head _ _ h1,
    dropWhile_eq_self_of_head _ _ (fun c hc => h2 c (by rwa [List.head?_reverse] at hc))]
  exact List.reverse_reverse l

/-- Rendered text of a nonempty system with a nonempty tail. -/
theorem renderText_cons (e : REqn) (es : List REqn) (h : es ≠ []) :
    renderText (e :: es) = renderEqn e ++ '\n' :: renderText es := by
  cases es with
  | nil => exact absurd rfl h
  | cons e2 es2 => rfl

/-- Rendered text of a nonempty system is nonempty. -/
theorem renderText_ne_nil (e : REqn) (es : List REqn) : renderText (e :: es) ≠ [] := by
  cases es with
  | nil => exact renderEqn_ne_nil e
  | cons e2 es2 =>
      rw [renderText_cons e (e2 :: es2) (List.cons_ne_nil e2 es2)]
      intro h
      exact absurd (List.append_eq_nil.mp h).2 (List.cons_ne_nil _ _)

/-- A newline never occurs inside a rendered well-formed equation. -/
theorem newline_not_mem_renderEqn (e : REqn) (h : WFEqn e) : '\n' ∉ renderEqn e := by
  intro hc
  rcases renderEqn_chars e h _ hc with hg | hg
  · exact (good_char_facts _ hg).2.1 rfl
  · exact absurd hg (by decide)

/-- Splitting rendered well-formed text into lines recovers the rendered
equations. -/
theorem splitLines_renderText : ∀ es : List REqn, WFText es → es ≠ [] →
    splitLines (renderText es) = es.map renderEqn := by
  intro es
  induction es with
  | nil => intro _ h; exact absurd rfl h
  | cons e es ih =>
      intro hwf _
      cases es with
      | nil =>
          rw [splitLines, if_neg (renderText_ne_nil e [])]
          show pySplit '\n' (renderEqn e) = [renderEqn e]
          exact pySplit_not_mem '\n' (renderEqn e)
            (newline_not_mem_renderEqn e (hwf e (List.mem_cons_self e [])))
      | cons e2 es2 =>
          rw [splitLines, if_neg (renderText_ne_nil e (e2 :: es2)),
            renderText_cons e (e2 :: es2) (List.cons_ne_nil e2 es2),
            pySplit_append '\n' (renderText (e2 :: es2)) (renderEqn e)
              (newline_not_mem_renderEqn e (hwf e (List.mem_cons_self e (e2 :: es2))))]
          have hih := ih (fun e3 he3 => hwf e3 (List.mem_cons_of_mem e he3))
            (List.cons_ne_nil e2 es2)
          rw [splitLines, if_neg (renderText_ne_nil e2 es2)] at hih
          rw [hih]
          rfl

/-- The first character of a rendered nonempty system is a character of
the first rendered equation. -/
theorem renderText_head (e : REqn) (es : List REqn) :
    ∀ c, (renderText (e :: es)).head? = some c → c ∈ renderEqn e := by
  intro c hc
  cases es with
  | nil => exact List.mem_of_mem_head? hc
  | cons e2 es2 =>
      rw [renderText_cons e (e2 :: es2) (List.cons_ne_nil e2 es2)] at hc
      cases h : renderEqn e with
      | nil => exact absurd h (renderEqn_ne_nil e)
      | cons c2 l =>
          rw [h, List.cons_append] at hc
          have : c2 = c := by
            have := hc
            simp at this
            exact this
          rw [← this]
          exact List.mem_cons_self c2 l

/-- The last character of a rendered well-formed equation is one of its
right-hand-side digits. -/
theorem renderEqn_last (e : REqn) (h : WFEqn e) :
    ∀ c, (renderEqn e).getLast? = some c → c ∈ e.rhsDigits := by
  intro c hc
  rw [renderEqn] at hc
  rw [List.getLast?_append_of_ne_nil (renderTerms e.terms)
    (List.cons_ne_nil _ _)] at hc
  have hrw : ('=' ::
      ((match e.rhsSgn with
        | none => ([] : List Char) | some true => ['+'] | some false => ['-']) ++
        e.rhsDigits)) =
      ('=' :: (match e.rhsSgn with
        | none => ([] : List Char) | some true => ['+'] | some false => ['-'])) ++
        e.rhsDigits := by
    simp
  rw [hrw, List.getLast?_append_of_ne_nil _ h.2.1] at hc
  exact List.mem_of_mem_getLast? hc

/-- The last character of a rendered nonempty well-formed system is a
right-hand-side digit of one of its equations. -/
theorem renderText_last : ∀ (e : REqn) (es : List REqn), WFText (e :: es) →
    ∀ c, (renderText (e :: es)).getLast? = some c →
      ∃ e2 ∈ e :: es, c ∈ e2.rhsDigits := by
  intro e es
  induction es generalizing e with
  | nil =>
      intro hwf c hc
      exact ⟨e, List.mem_cons_self e [],
        renderEqn_last e (hwf e (List.mem_cons_self e [])) c hc⟩
  | cons e2 es2 ih =>
      intro hwf c hc
      rw [renderText_cons e (e2 :: es2) (List.cons_ne_nil e2 es2)] at hc
      rw [List.getLast?_append_of_ne_nil (renderEqn e) (List.cons_ne_nil _ _)] at hc
      have hconscat : ('\n' :: renderText (e2 :: es2)) = ['\n'] ++ renderText (e2 :: es2) := rfl
      rw [hconscat, List.getLast?_append_of_ne_nil ['\n'] (renderText_ne_nil e2 es2)] at hc
      obtain ⟨e3, he3, hce3⟩ := ih e2 (fun e4 he4 => hwf e4 (List.mem_cons_of_mem e he4)) c hc
      exact ⟨e3, List.mem_cons_of_mem e he3, hce3⟩

/-- Stripping rendered well-formed text is a no-op. -/
theorem pyStrip_renderText (es : List REqn) (hwf : WFText es) :
    pyStrip (renderText es) = renderText es := by
  cases es with
  | nil => rfl
  | cons e es2 =>
      apply pyStrip_eq_self
      · intro c hc
        have hmem := renderText_head e es2 c hc
        rcases renderEqn_chars e (hwf e (List.mem_cons_self e es2)) c hmem with hg | hg
        · exact (good_char_facts c hg).2.2.2
        · rw [hg]
          decide
      · intro c hc
        obtain ⟨e2, he2, hce2⟩ := renderText_last e es2 hwf c hc
        exact (good_char_facts c (Or.inr (Or.inr (Or.inl
          ((hwf e2 he2).2.2 c hce2))))).2.2.2

/-! ## Scanner lemmas for rendered terms -/

/-- Letters are not digits. -/
theorem isAlpha_not_isDigit (c : Char) (h : c.isAlpha = true) : c.isDigit = false := by
  cases hd : c.isDigit with
  | false => rfl
  | true =>
      exfalso
      have h1 := isDigit_toNat c hd
      rcases isAlpha_toNat c h with h2 | h2 <;> omega

/-- Digits are not sign characters. -/
theorem isDigit_ne_sign (c : Char) (h : c.isDigit = true) : c ≠ '+' ∧ c ≠ '-' := by
  have h1 := isDigit_toNat c h
  have hp : ('+' : Char).toNat = 43 := by decide
  have hm : ('-' : Char).toNat = 45 := by decide
  constructor <;> intro he <;> rw [he] at h1 <;> omega

/-- Letters are not sign characters. -/
theorem isAlpha_ne_sign (c : Char) (h : c.isAlpha = true) : c ≠ '+' ∧ c ≠ '-' := by
  rcases isAlpha_toNat c h with h1 | h1 <;>
    · have hp : ('+' : Char).toNat = 43 := by decide
      have hm : ('-' : Char).toNat = 45 := by decide
      constructor <;> intro he <;> rw [he] at h1 <;> omega

/-- Sign consumption on a `+`-headed list. -/
theorem signSplit_plus (l : List Char) : signSplit ('+' :: l) = (1, l) := by
  rw [signSplit, if_pos rfl]

/-- Sign consumption on a `-`-headed list. -/
theorem signSplit_minus (l : List Char) : signSplit ('-' :: l) = (-1, l) := by
  rw [signSplit, if_neg (by decide), if_pos rfl]

/-- Sign consumption without a sign character. -/
theorem signSplit_other (c : Char) (l : List Char) (h1 : c ≠ '+') (h2 : c ≠ '-') :
    signSplit (c :: l) = (1, c :: l) := by
  rw [signSplit, if_neg h1, if_neg h2]

/-- Digit-run splitting of a digit prefix followed by a non-digit. -/
theorem digitRun_split (v : Char) (R : List Char) (hv : v.isDigit = false) :
    ∀ ds : List Char, (∀ c ∈ ds, c.isDigit = true) →
      (ds ++ v :: R).takeWhile Char.isDigit = ds ∧
      (ds ++ v :: R).dropWhile Char.isDigit = v :: R := by
  intro ds
  induction ds with
  | nil =>
      intro _
      constructor
      · rw [List.nil_append, List.takeWhile_cons, hv]
        simp
      · rw [List.nil_append, List.dropWhile_cons, hv]
        simp
  | cons d ds2 ih =>
      intro hall
      have hd : d.isDigit = true := hall d (List.mem_cons_self d ds2)
      have hih := ih (fun c hc => hall c (List.mem_cons_of_mem d hc))
      constructor
      · rw [List.cons_append, List.takeWhile_cons, hd]
        simp only [hih.1]
        simp
      · rw [List.cons_append, List.dropWhile_cons, hd]
        simp only [hih.2]
        simp

/-- One scanner iteration on a list whose sign consumption leaves a digit
run followed by a variable character: it consumes the whole term. -/
theorem scanner_after_sign (fuel : ℕ) (c : Char) (rest : List Char)
    (eqn : List (Char × ℤ)) (vars : List Char) (sgnVal : ℤ) (mid : List Char)
    (v : Char) (R : List Char)
    (hss : signSplit (c :: rest) = (sgnVal, mid ++ v :: R))
    (hmid : ∀ x ∈ mid, x.isDigit = true) (hv : v.isDigit = false) :
    parseTermsAux (fuel + 1) (c :: rest) eqn vars =
      parseTermsAux fuel R
        (updAssoc eqn v (sgnVal * (if mid = ([] : List Char) then 1 else (digitsVal mid : ℤ))))
        (if v ∈ vars then vars else vars ++ [v]) := by
  have hsplit := digitRun_split v R hv mid hmid
  rw [parseTermsAux]
  simp only [hss, hsplit.1, hsplit.2]

/-- Rendered terms are nonempty. -/
theorem renderTerm_length_pos (t : RTerm) : 1 ≤ (renderTerm t).length := by
  rw [renderTerm]
  simp [List.length_append]
  omega

/-- One scanner iteration consumes exactly one rendered well-formed term,
updating the equation dictionary by its signed value and recording its
variable. -/
theorem parseTermsAux_step (t : RTerm) (R : List Char) (eqn : List (Char × ℤ))
    (vars : List Char) (fuel : ℕ) (hwf : WFTerm t) :
    parseTermsAux (fuel + 1) (renderTerm t ++ R) eqn vars =
      parseTermsAux fuel R (updAssoc eqn t.v (termVal t))
        (if t.v ∈ vars then vars else vars ++ [t.v]) := by
  have hvd : t.v.isDigit = false := isAlpha_not_isDigit t.v hwf.1
  have hvs := isAlpha_ne_sign t.v hwf.1
  rcases hs : t.sgn with _ | b
  · rcases hd : t.coefDigits with _ | ds
    · have hform : renderTerm t ++ R = t.v :: R := by
        rw [renderTerm, hs, hd]
        simp
      rw [hform,
        scanner_after_sign fuel t.v R eqn vars 1 [] t.v R
          (signSplit_other t.v R hvs.1 hvs.2) (fun x hx => absurd hx (List.not_mem_nil x))
          hvd]
      have hval : (1 : ℤ) * (if ([] : List Char) = ([] : List Char) then 1
          else (digitsVal [] : ℤ)) = termVal t := by
        rw [termVal, hs, hd]
        simp
      rw [hval]
    · have hwf2 := hwf.2
      rw [hd] at hwf2
      obtain ⟨hne, hds⟩ := hwf2
      obtain ⟨d, ds2, rfl⟩ := List.exists_cons_of_ne_nil hne
      have hdd : d.isDigit = true := hds d (List.mem_cons_self d ds2)
      have hdsign := isDigit_ne_sign d hdd
      have hform : renderTerm t ++ R = d :: (ds2 ++ t.v :: R) := by
        rw [renderTerm, hs, hd]
        simp
      rw [hform,
        scanner_after_sign fuel d (ds2 ++ t.v :: R) eqn vars 1 (d :: ds2) t.v R
          (by rw [← List.cons_append]
              exact signSplit_other d (ds2 ++ t.v :: R) hdsign.1 hdsign.2) hds hvd]
      have hval : (1 : ℤ) * (if (d :: ds2) = ([] : List Char) then 1
          else (digitsVal (d :: ds2) : ℤ)) = termVal t := by
        rw [termVal, hs, hd, if_neg (List.cons_ne_nil d ds2)]
        simp
      rw [hval]
  · rcases hd : t.coefDigits with _ | ds
    · have hform : renderTerm t ++ R =
          (if b then '+' else '-') :: ([] ++ t.v :: R) := by
        rw [renderTerm, hs]
        cases b <;> simp [hd]
      rw [hform,
        scanner_after_sign fuel (if b then '+' else '-') ([] ++ t.v :: R) eqn vars
          (if b then 1 else -1) [] t.v R
          (by cases b
              · simp only [if_neg Bool.false_ne_true]
                exact signSplit_minus ([] ++ t.v :: R)
              · simp only [if_pos rfl]
                exact signSplit_plus ([] ++ t.v :: R))
          (fun x hx => absurd hx (List.not_mem_nil x)) hvd]
      have hval : (if b then (1 : ℤ) else -1) * (if ([] : List Char) = ([] : List Char)
          then 1 else (digitsVal [] : ℤ)) = termVal t := by
        rw [termVal, hs]
        cases b <;> simp [hd]
      rw [hval]
    · have hwf2 := hwf.2
      rw [hd] at hwf2
      obtain ⟨hne, hds⟩ := hwf2
      have hform : renderTerm t ++ R =
          (if b then '+' else '-') :: (ds ++ t.v :: R) := by
        rw [renderTerm, hs]
        cases b <;> simp [hd]
      rw [hform,
        scanner_after_sign fuel (if b then '+' else '-') (ds ++ t.v :: R) eqn vars
          (if b then 1 else -1) ds t.v R
          (by cases b
              · simp only [if_neg Bool.false_ne_true]
                exact signSplit_minus (ds ++ t.v :: R)
              · simp only [if_pos rfl]
                exact signSplit_plus (ds ++ t.v :: R))
          hds hvd]
      have hval : (if b then (1 : ℤ) else -1) * (if ds = ([] : List Char)
          then 1 else (digitsVal ds : ℤ)) = termVal t := by
        rw [termVal, hs, hd, if_neg hne]
        cases b <;> simp
      rw [hval]

/-- The scanner on a rendered well-formed term list accumulates every
signed coefficient and every first-seen variable, with any fuel at least
the input length. -/
theorem parseTermsAux_render : ∀ (ts : List RTerm) (fuel : ℕ) (eqn : List (Char × ℤ))
    (vars : List Char), (∀ t ∈ ts, WFTerm t) → (renderTerms ts).length ≤ fuel →
    parseTermsAux fuel (renderTerms ts) eqn vars = .ok (accEqn eqn ts, accVars vars ts) := by
  intro ts
  induction ts with
  | nil =>
      intro fuel eqn vars _ _
      cases fuel <;> rfl
  | cons t ts ih =>
      intro fuel eqn vars hwf hfuel
      have hpos : 1 ≤ (renderTerm t).length := renderTerm_length_pos t
      have hlen : (renderTerms (t :: ts)).length =
          (renderTerm t).length + (renderTerms ts).length := by
        rw [renderTerms, List.length_append]
      cases fuel with
      | zero => omega
      | succ f =>
          rw [renderTerms, parseTermsAux_step t (renderTerms ts) eqn vars f
            (hwf t (List.mem_cons_self t ts))]
          rw [ih f _ _ (fun t2 ht2 => hwf t2 (List.mem_cons_of_mem t ht2)) (by omega)]
          rfl

/-! ## Association-list lemmas for the equation dictionary -/

/-- Rewriting the entries holding key `v` does not change lookups of other
keys. -/
theorem lookup_map_ne (v w : Char) (x d : ℤ) (hwv : w ≠ v) :
    ∀ e : List (Char × ℤ),
      List.lookup w (e.map (fun q => if q.1 = v then (v, x + d) else q)) =
        List.lookup w e := by
  intro e
  induction e with
  | nil => rfl
  | cons q e2 ih =>
      obtain ⟨a, b⟩ := q
      by_cases hav : a = v
      · subst hav
        simp [List.lookup_cons, beq_eq_false_iff_ne.mpr hwv, ih]
      · simp [List.lookup_cons, hav, ih]

/-- Rewriting the entries holding key `v` to `x + d` makes its lookup
`x + d`, when `v` was present with value `x`. -/
theorem lookup_map_self (v : Char) (x d : ℤ) :
    ∀ e : List (Char × ℤ), List.lookup v e = some x →
      List.lookup v (e.map (fun q => if q.1 = v then (v, x + d) else q)) =
        some (x + d) := by
  intro e
  induction e with
  | nil => intro h; exact Option.noConfusion h
  | cons q e2 ih =>
      obtain ⟨a, b⟩ := q
      intro h
      by_cases hav : a = v
      · subst hav
        simp [List.lookup_cons]
      · have hva : ¬ v = a := fun he => hav he.symm
        have h2 : List.lookup v e2 = some x := by
          rw [List.lookup_cons] at h
          rwa [beq_eq_false_iff_ne.mpr hva] at h
        rw [List.map_cons, if_neg hav, List.lookup_cons,
          beq_eq_false_iff_ne.mpr hva]
        exact ih h2

/-- Lookup in a list extended by a fresh single entry. -/
theorem lookup_append_single (w v : Char) (d : ℤ) :
    ∀ e : List (Char × ℤ), List.lookup v e = none →
      List.lookup w (e ++ [(v, d)]) =
        if w = v then some d else List.lookup w e := by
  intro e
  induction e with
  | nil =>
      intro _
      by_cases hwv : w = v
      · simp [List.lookup_cons, beq_iff_eq.mpr hwv, hwv]
      · simp [List.lookup_cons, beq_eq_false_iff_ne.mpr hwv, hwv]
  | cons q e2 ih =>
      obtain ⟨a, b⟩ := q
      intro h
      have hva : ¬ v = a := by
        intro he
        rw [List.lookup_cons, beq_iff_eq.mpr he] at h
        exact Option.noConfusion h
      have h2 : List.lookup v e2 = none := by
        rw [List.lookup_cons, beq_eq_false_iff_ne.mpr hva] at h
        exact h
      by_cases hwa : w = a
      · have hwv : ¬ w = v := fun hwv => hva (hwv.symm.trans hwa)
        rw [List.cons_append, List.lookup_cons, beq_iff_eq.mpr hwa, if_neg hwv,
          List.lookup_cons, beq_iff_eq.mpr hwa]
      · rw [List.cons_append, List.lookup_cons, beq_eq_false_iff_ne.mpr hwa, ih h2,
          List.lookup_cons, beq_eq_false_iff_ne.mpr hwa]

/-- The dictionary update adds `d` to the looked-up value of its key and
leaves other keys unchanged. -/
theorem updAssoc_lookupD (v w : Char) (d : ℤ) :
    ∀ e : List (Char × ℤ),
      lookupD (updAssoc e v d) w =
        if w = v then lookupD e v + d else lookupD e w := by
  intro e
  cases he : List.lookup v e with
  | some x =>
      have hupd : updAssoc e v d = e.map (fun q => if q.1 = v then (v, x + d) else q) := by
        rw [updAssoc, he]
      by_cases hwv : w = v
      · subst hwv
        rw [hupd, if_pos rfl, lookupD, lookupD, lookup_map_self w x d e he, he]
        rfl
      · rw [hupd, if_neg hwv, lookupD, lookupD, lookup_map_ne v w x d hwv e]
  | none =>
      have hupd : updAssoc e v d = e ++ [(v, d)] := by
        rw [updAssoc, he]
      by_cases hwv : w = v
      · subst hwv
        rw [hupd, if_pos rfl, lookupD, lookupD, lookup_append_single w w d e he,
          if_pos rfl, he]
        simp
      · rw [hupd, if_neg hwv, lookupD, lookupD, lookup_append_single w v d e he,
          if_neg hwv]

/-- The accumulated dictionary of a term list holds, for each variable,
its previous value plus the sum of the signed coefficients of the terms
naming it. -/
theorem accEqn_lookupD : ∀ (ts : List RTerm) (eqn : List (Char × ℤ)) (v : Char),
    lookupD (accEqn eqn ts) v = lookupD eqn v + coeffSumTerms ts v := by
  intro ts
  induction ts with
  | nil =>
      intro eqn v
      simp [accEqn, coeffSumTerms]
  | cons t ts ih =>
      intro eqn v
      rw [accEqn, ih, updAssoc_lookupD]
      have hcs : coeffSumTerms (t :: ts) v =
          (if t.v == v then termVal t else 0) + coeffSumTerms ts v := by
        rw [coeffSumTerms, coeffSumTerms, List.filter_cons]
        by_cases hv : t.v == v
        · rw [if_pos hv, if_pos hv, List.map_cons, List.sum_cons]
        · rw [if_neg hv, if_neg hv, zero_add]
      rw [hcs]
      by_cases hv : t.v = v
      · rw [if_pos (beq_iff_eq.mpr hv), if_pos hv.symm, hv]
        ring
      · rw [if_neg (fun hb => hv (beq_iff_eq.mp hb)), if_neg (fun he => hv he.symm),
          zero_add]

/-- Python `int` on a rendered well-formed right-hand side returns its
signed value. -/
theorem intParse_render (e : REqn) (h : WFEqn e) :
    intParse ((match e.rhsSgn with
      | none => ([] : List Char) | some true => ['+'] | some false => ['-']) ++
        e.rhsDigits) = .ok (rhsVal e) := by
  rcases hs : e.rhsSgn with _ | b
  · show intParse e.rhsDigits = .ok (rhsVal e)
    obtain ⟨d, ds, hds⟩ := List.exists_cons_of_ne_nil h.2.1
    have hdd : d.isDigit = true := h.2.2 d (by rw [hds]; exact List.mem_cons_self d ds)
    have hdsign := isDigit_ne_sign d hdd
    have hstrip : pyStrip e.rhsDigits = e.rhsDigits := by
      apply pyStrip_eq_self
      · intro c hc
        exact (good_char_facts c (Or.inr (Or.inr (Or.inl
          (h.2.2 c (List.mem_of_mem_head? hc)))))).2.2.2
      · intro c hc
        exact (good_char_facts c (Or.inr (Or.inr (Or.inl
          (h.2.2 c (List.mem_of_mem_getLast? hc)))))).2.2.2
    simp only [intParse]
    rw [hstrip, hds, signSplit_other d ds hdsign.1 hdsign.2]
    rw [if_pos ⟨List.cons_ne_nil d ds, List.all_eq_true.mpr
      (fun c hc => h.2.2 c (by rw [hds]; exact hc))⟩]
    rw [rhsVal, hs, hds]
    simp
  · cases b with
    | true =>
        show intParse ('+' :: e.rhsDigits) = .ok (rhsVal e)
        have hstrip : pyStrip ('+' :: e.rhsDigits) = '+' :: e.rhsDigits := by
          apply pyStrip_eq_self
          · intro c hc
            rw [List.head?_cons] at hc
            rw [← Option.some.inj hc]
            decide
          · intro c hc
            rw [show ('+' :: e.rhsDigits) = ['+'] ++ e.rhsDigits from rfl,
              List.getLast?_append_of_ne_nil ['+'] h.2.1] at hc
            exact (good_char_facts c (Or.inr (Or.inr (Or.inl
              (h.2.2 c (List.mem_of_mem_getLast? hc)))))).2.2.2
        simp only [intParse]
        rw [hstrip, signSplit_plus]
        rw [if_pos ⟨h.2.1, List.all_eq_true.mpr h.2.2⟩]
        rw [rhsVal, hs]
        simp
    | false =>
        show intParse ('-' :: e.rhsDigits) = .ok (rhsVal e)
        have hstrip : pyStrip ('-' :: e.rhsDigits) = '-' :: e.rhsDigits := by
          apply pyStrip_eq_self
          · intro c hc
            rw [List.head?_cons] at hc
            rw [← Option.some.inj hc]
            decide
          · intro c hc
            rw [show ('-' :: e.rhsDigits) = ['-'] ++ e.rhsDigits from rfl,
              List.getLast?_append_of_ne_nil ['-'] h.2.1] at hc
            exact (good_char_facts c (Or.inr (Or.inr (Or.inl
              (h.2.2 c (List.mem_of_mem_getLast? hc)))))).2.2.2
        simp only [intParse]
        rw [hstrip, signSplit_minus]
        rw [if_pos ⟨h.2.1, List.all_eq_true.mpr h.2.2⟩]
        rw [rhsVal, hs]
        simp

/-- Parsing one rendered well-formed equation line succeeds with the
accumulated coefficient dictionary, the signed right-hand value and the
extended first-appearance variable list. -/
theorem parseLine_render (e : REqn) (vars : List Char) (h : WFEqn e) :
    parseLine (renderEqn e) vars =
      .ok (accEqn [] e.terms, rhsVal e, accVars vars e.terms) := by
  have hfilter : (renderEqn e).filter (fun c => c != ' ') = renderEqn e := by
    rw [List.filter_eq_self]
    intro c hc
    rcases renderEqn_chars e h c hc with hg | hg
    · exact (good_char_facts c hg).2.2.1
    · rw [hg]
      decide
  have hleft : '=' ∉ renderTerms e.terms := by
    intro hc
    exact (good_char_facts '=' (renderTerms_chars e.terms h.1 '=' hc)).1 rfl
  have hright : '=' ∉ (match e.rhsSgn with
      | none => ([] : List Char) | some true => ['+'] | some false => ['-']) ++
        e.rhsDigits := by
    intro hc
    exact (good_char_facts '=' (renderRhs_chars e h '=' hc)).1 rfl
  have hsplit : pySplit '=' ((renderEqn e).filter (fun c => c != ' ')) =
      [renderTerms e.terms,
        (match e.rhsSgn with
          | none => ([] : List Char) | some true => ['+'] | some false => ['-']) ++
          e.rhsDigits] := by
    rw [hfilter, renderEqn, pySplit_append '=' _ _ hleft, pySplit_not_mem '=' _ hright]
  have hterms := parseTermsAux_render e.terms (renderTerms e.terms).length [] vars h.1
    le_rfl
  have hrhs := intParse_render e h
  simp only [parseLine, hsplit, hterms, hrhs]

/-- Parsing the rendered well-formed lines in order accumulates one
dictionary-value pair per equation and the global first-appearance
variable order. -/
theorem parseLinesAux_render : ∀ (es : List REqn) (eqns : List ((List (Char × ℤ)) × ℤ))
    (vars : List Char), WFText es →
    parseLinesAux (es.map renderEqn) eqns vars =
      .ok (eqns ++ es.map (fun e => (accEqn [] e.terms, rhsVal e)), accVarsText vars es) := by
  intro es
  induction es with
  | nil =>
      intro eqns vars _
      simp [parseLinesAux, accVarsText]
  | cons e es ih =>
      intro eqns vars hwf
      simp only [List.map_cons, parseLinesAux,
        parseLine_render e vars (hwf e (List.mem_cons_self e es))]
      rw [ih (eqns ++ [(accEqn [] e.terms, rhsVal e)]) (accVars vars e.terms)
        (fun e2 he2 => hwf e2 (List.mem_cons_of_mem e he2))]
      rw [accVarsText]
      simp

/-- Claim C3: on every rendered well-formed equation text the parser
succeeds, returning the variables in order of global first appearance
across all lines and one row per equation whose entry for each variable is
the sum of that variable's signed coefficients within the line (implicit
coefficient 1 when no digits precede the variable) and whose last entry is
the integer right-hand side. -/
theorem parser_roundtrip (es : List REqn) (hwf : WFText es) :
    parse_gauss_jordan_elimination (renderText es) =
      .ok (es.map (expectedRow (expectedVars es)), expectedVars es) := by
  cases es with
  | nil => decide
  | cons e es2 =>
      have hstrip := pyStrip_renderText (e :: es2) hwf
      have hsplit := splitLines_renderText (e :: es2) hwf (List.cons_ne_nil e es2)
      have hlines := parseLinesAux_render (e :: es2) [] [] hwf
      simp only [parse_gauss_jordan_elimination, hstrip, hsplit, hlines,
        List.nil_append, List.map_map]
      refine congrArg Except.ok (Prod.ext ?_ rfl)
      show List.map ((fun eq : (List (Char × ℤ)) × ℤ =>
          List.map (fun v => lookupD eq.1 v) (accVarsText [] (e :: es2)) ++ [eq.2]) ∘
          fun e2 => (accEqn [] e2.terms, rhsVal e2)) (e :: es2) =
        List.map (expectedRow (expectedVars (e :: es2))) (e :: es2)
      apply List.map_congr_left
      intro e2 _
      show (expectedVars (e :: es2)).map (fun v => lookupD (accEqn [] e2.terms) v) ++
        [rhsVal e2] = expectedRow (expectedVars (e :: es2)) e2
      rw [expectedRow]
      congr 1
      apply List.map_congr_left
      intro v _
      rw [accEqn_lookupD e2.terms [] v]
      show (0 : ℤ) + coeffSumTerms e2.terms v = coeffSumTerms e2.terms v
      rw [zero_add]

/-- Witness for claim C3 at the instance named by the claim: the system
x+y=2, x-y=0 is well formed and parses to variables x, y and augmented
matrix rows [1, 1, 2] and [1, -1, 0]. -/
theorem parser_roundtrip_witness :
    WFText [⟨[⟨none, none, 'x'⟩, ⟨some true, none, 'y'⟩], none, ['2']⟩,
        ⟨[⟨none, none, 'x'⟩, ⟨some false, none, 'y'⟩], none, ['0']⟩] ∧
      parse_gauss_jordan_elimination "x+y=2\nx-y=0".toList =
        .ok ([[1, 1, 2], [1, -1, 0]], ['x', 'y']) := by
  refine ⟨by decide, ?_⟩
  have h := parser_roundtrip
    [⟨[⟨none, none, 'x'⟩, ⟨some true, none, 'y'⟩], none, ['2']⟩,
      ⟨[⟨none, none, 'x'⟩, ⟨some false, none, 'y'⟩], none, ['0']⟩]
    (by decide)
  have heq : renderText
      [⟨[⟨none, none, 'x'⟩, ⟨some true, none, 'y'⟩], none, ['2']⟩,
        ⟨[⟨none, none, 'x'⟩, ⟨some false, none, 'y'⟩], none, ['0']⟩] =
      "x+y=2\nx-y=0".toList := by decide
  rw [heq] at h
  exact h.trans (by decide)

/-! ## Claim C4: parser failure modes -/

/-- Counterexample to claim C4: a line containing the non-digit non-letter
character `*` among the terms does not fail at all -- the parser accepts
`*` as a variable name and succeeds (there is no `ParseError` anywhere in
the source). -/
theorem parse_unexpected_char_accepted :
    parse_gauss_jordan_elimination "x+*y=2".toList =
      .ok ([[1, 1, 1, 2]], ['x', '*', 'y']) := by
  decide

/-- Amended claim C4: the parser has no `ParseError`; a line without `=`
fails with the generic `ValueError` of the tuple unpacking
`left, right = line.split("=")`; a term of digits with no following
character fails with `IndexError` from `left[i]`; and a non-digit
non-letter character among the terms is not rejected but consumed as a
variable name, the parse succeeding. -/
theorem parse_failure_modes :
    parse_gauss_jordan_elimination "x+y".toList = .error .valueError ∧
    parse_gauss_jordan_elimination "2=3".toList = .error .indexError ∧
    parse_gauss_jordan_elimination "x+@y=2".toList =
      .ok ([[1, 1, 1, 2]], ['x', '@', 'y']) := by
  exact ⟨by decide, by decide, by decide⟩

end LinAlg
